import Mathlib

/-! fast_ds::LockFreeArray, single-threaded semantics.

A shallow embedding of `include/vectors/LockFreeArray.h`.

* Machine integers are naturals and integers with explicit wrap-around:
  `size_t` is 64 bit, `int` and `unsigned int` are 32 bit.
* An operation is a function from the container state to a `Res`: it returns a
  value and a new state, or it throws a C++ exception and leaves a state
  behind, or it has undefined behaviour.
* The model is sequential: one thread runs each operation to its end, and a
  compare-exchange never fails spuriously.  The retry loops of `PushBack` and
  `PopBack` therefore run their body exactly once: the descriptor read at the
  top of the body is still the current one at the compare-exchange, and
  `descriptor_` is never null.
* The element arrays returned by `new std::atomic<T>[n]` start with arbitrary
  contents; `fresh b k` is what slot `k` of the array allocated for bucket `b`
  holds right after its allocation.
* The constructor writes bucket pointer 0 only; `junk b` is what the memory of
  bucket pointer `b` holds otherwise, a null pointer or any other one.
* `Empty()` is not embedded: it is a `const` member that calls the non-const
  `Size()`, so the source has no call of it that compiles.
-/

namespace fast_ds

/-! ## Outcomes of an operation -/

/-- The C++ exceptions the code can raise. -/
inductive Exn where
  | out_of_range
  | bad_array_new_length
  deriving DecidableEq, Repr

/-- Result of running an operation on a state of type `σ`. -/
inductive Res (σ α : Type) where
  | ok (r : α) (s : σ)
  | throws (e : Exn) (s : σ)
  | undefined
  deriving DecidableEq, Repr

/-- An operation on a state of type `σ` with a result of type `α`. -/
def Op (σ α : Type) : Type := σ → Res σ α

/-- Sequencing of operations: an exception or undefined behaviour ends the run. -/
def Op.bind {σ α β : Type} (m : Op σ α) (f : α → Op σ β) : Op σ β := fun s =>
  match m s with
  | .ok r s1 => f r s1
  | .throws e s1 => .throws e s1
  | .undefined => .undefined

instance (σ : Type) : Monad (Op σ) where
  pure r := fun s => .ok r s
  bind := Op.bind

/-- Read the whole state. -/
def Op.get {σ : Type} : Op σ σ := fun s => .ok s s

/-- Replace the whole state. -/
def Op.set {σ : Type} (s : σ) : Op σ Unit := fun _ => .ok () s

/-- Raise a C++ exception. -/
def Op.throw {σ α : Type} (e : Exn) : Op σ α := fun s => .throws e s

/-- Undefined behaviour. -/
def Op.ub {σ α : Type} : Op σ α := fun _ => .undefined

/-- A pure computation that may be undefined. -/
def Op.ofOption {σ α : Type} : Option α → Op σ α
  | some r => pure r
  | none => Op.ub

/-! ## Machine integers -/

/-- Conversion of a `size_t` to `int` (32-bit two's complement). -/
def toInt (n : Nat) : Int :=
  if n % 2 ^ 32 < 2 ^ 31 then ((n % 2 ^ 32 : Nat) : Int) else ((n % 2 ^ 32 : Nat) : Int) - 2 ^ 32

/-- Conversion of an `int` to `size_t` (64 bit). -/
def toSizeT (i : Int) : Nat := (i % 2 ^ 64).toNat

/-- Conversion of a `size_t` to `unsigned int` (32 bit). -/
def toUnsigned (n : Nat) : Nat := n % 2 ^ 32

/-- Number of zero bits above the highest set bit among bits `k-1 .. 0` of `x`. -/
def clzAux : Nat → Nat → Nat
  | 0, _ => 0
  | k + 1, x => if x.testBit k then 0 else clzAux k x + 1

/-- The builtin `__builtin_clz` on a 32-bit unsigned value; undefined at 0. -/
def builtin_clz (x : Nat) : Option Nat :=
  if x = 0 then none else some (clzAux 32 x)

/-- `1 << k` in `int`: undefined for a count outside `0..31`; `1 << 31` is `INT_MIN`. -/
def shl1 (k : Int) : Option Int :=
  if 0 ≤ k ∧ k < 32 then some (toInt (2 ^ k.toNat)) else none

/-! ## Data model -/

def kNumberOfBuckets : Nat := 32

def kFirstBucketCapacity : Nat := 2

/-- `internal::write_descriptor<T>`. -/
structure write_descriptor (T : Type) where
  old_value_ : T
  new_value_ : T
  location_ : Nat
  completed_ : Bool
  deriving DecidableEq, Repr

/-- The default constructor `write_descriptor()`: `location_(0), completed_(true)`; the two
value fields are left default-initialised and are never read while `completed_` holds. -/
instance (T : Type) [Inhabited T] : Inhabited (write_descriptor T) where
  default := { old_value_ := default, new_value_ := default, location_ := 0, completed_ := true }

/-- `internal::v_descriptor<T>`. -/
structure v_descriptor (T : Type) where
  size_ : Nat
  writeDescriptor_ : write_descriptor T
  deriving DecidableEq, Repr

/-- The defaulted constructor `v_descriptor()`: `size_ = 0` and a default write descriptor. -/
instance (T : Type) [Inhabited T] : Inhabited (v_descriptor T) where
  default := { size_ := 0, writeDescriptor_ := default }

/-- `LockFreeArray<T>`: the bucket table `data_` (a null pointer is `none`, an allocated
array is the list of its slots) and the current vector descriptor `descriptor_`. -/
structure LockFreeArray (T : Type) where
  data_ : List (Option (List T))
  descriptor_ : v_descriptor T
  deriving DecidableEq, Repr

/-- Address of an element slot: bucket number and offset in the bucket. -/
abbrev Slot : Type := Nat × Nat

section ops

variable {T : Type}

/-- `HighestBitSet(unsigned int x)`: `31 - __builtin_clz(x)`; the argument is converted to
`unsigned int` at the call. -/
def HighestBitSet (x : Nat) : Option Int :=
  match builtin_clz (toUnsigned x) with
  | some c => some (31 - (c : Int))
  | none => none

/-- `At(size_t index)`: the slot `&data_[hibit - HighestBitSet(kFirstBucketCapacity)][index_in_bucket]`.
Indexing the 32-entry table outside `0..31` is undefined. -/
def At (index : Nat) : Option Slot := do
  let pos := (index + kFirstBucketCapacity) % 2 ^ 64
  let hibit ← HighestBitSet pos
  let one_shl ← shl1 hibit
  let index_in_bucket := pos ^^^ toSizeT one_shl
  let h0 ← HighestBitSet kFirstBucketCapacity
  let bucket := hibit - h0
  if 0 ≤ bucket ∧ bucket < kNumberOfBuckets then some (bucket.toNat, index_in_bucket) else none

/-- The pointer stored in `data_[bucket]`; `bucket` is an `int`. -/
def bucket_load (bucket : Int) : Op (LockFreeArray T) (Option (List T)) := fun a =>
  if 0 ≤ bucket ∧ bucket < kNumberOfBuckets then
    match a.data_[bucket.toNat]? with
    | some p => .ok p a
    | none => .undefined
  else .undefined

/-- Atomic load of `*p` for a slot address `p`: undefined through a null bucket pointer or
past the end of the bucket. -/
def slot_load (p : Slot) : Op (LockFreeArray T) T := fun a =>
  match a.data_[p.1]? with
  | some (some bucket) =>
    match bucket[p.2]? with
    | some v => .ok v a
    | none => .undefined
  | _ => .undefined

/-- Atomic store `p->store(v)` for a slot address `p`. -/
def slot_store (p : Slot) (v : T) : Op (LockFreeArray T) Unit := fun a =>
  match a.data_[p.1]? with
  | some (some bucket) =>
    if p.2 < bucket.length then
      .ok () { a with data_ := a.data_.set p.1 (some (bucket.set p.2 v)) }
    else .undefined
  | _ => .undefined

/-- Compare-exchange on an element slot, `p->compare_exchange_weak(expected, desired)`. -/
def slot_compare_exchange [DecidableEq T] (p : Slot) (expected desired : T) :
    Op (LockFreeArray T) Bool := do
  let cur ← slot_load p
  if cur = expected then
    slot_store p desired
    pure true
  else pure false

/-- `CompleteWrite(write_descriptor)`.  The parameter is passed by value: the result is the
final value of that local copy, and no descriptor of the container is written. -/
def CompleteWrite [DecidableEq T] (write_descriptor : write_descriptor T) :
    Op (LockFreeArray T) (fast_ds.write_descriptor T) := do
  if !write_descriptor.completed_ then
    let memoryLocation ← Op.ofOption (At write_descriptor.location_)
    let _ ← slot_compare_exchange memoryLocation write_descriptor.old_value_
      write_descriptor.new_value_
    pure { write_descriptor with completed_ := true }
  else pure write_descriptor

/-- `AllocBucket(int bucket)`.  `currentBucket` is the pointer loaded just before the
compare-exchange, so the exchange installs the new array whatever the slot held. -/
def AllocBucket (fresh : Nat → Nat → T) (bucket : Int) : Op (LockFreeArray T) Unit := do
  let h0 ← Op.ofOption (HighestBitSet kFirstBucketCapacity)
  let bucketSize ← Op.ofOption (shl1 (bucket + h0))
  let _currentBucket ← bucket_load bucket
  if bucketSize < 0 then Op.throw Exn.bad_array_new_length
  else
    let newBucket := (List.range bucketSize.toNat).map (fresh bucket.toNat)
    let a ← Op.get
    Op.set { a with data_ := a.data_.set bucket.toNat (some newBucket) }

/-- The constructor `LockFreeArray()`.  `data_ = new std::atomic<std::atomic<T> *>[32]` leaves
each of the 32 bucket pointers with whatever the memory held, `junk b` for pointer `b`: `none`
is a null pointer, `some l` a non-null pointer through which the element slots `l` can be
accessed (`some []` for a pointer to no array).  Then `data_[0].store(...)` sets the first
pointer to a new array of `kFirstBucketCapacity` slots; nothing writes the other 31.  Atomics
that are value-initialised (C++20) are the case `junk = nulls`.  `descriptor_` is a default
descriptor. -/
def LockFreeArray.new [Inhabited T] (fresh : Nat → Nat → T) (junk : Nat → Option (List T)) :
    LockFreeArray T :=
  { data_ := ((List.range' 0 kNumberOfBuckets).map junk).set 0
      (some ((List.range kFirstBucketCapacity).map (fresh 0)))
    descriptor_ := default }

/-- Bucket pointers that all happen to be null. -/
def nulls : Nat → Option (List T) := fun _ => none

/-- `Size()`: `size_`, decremented (in `size_t`) when the write descriptor is not completed. -/
def Size (a : LockFreeArray T) : Nat :=
  let current_descriptor := a.descriptor_
  let current_size := current_descriptor.size_
  if !a.descriptor_.writeDescriptor_.completed_ then (current_size + 2 ^ 64 - 1) % 2 ^ 64
  else current_size

/-- `PushBack(value)`, one pass through the loop body and the final `CompleteWrite`. -/
def PushBack [DecidableEq T] (fresh : Nat → Nat → T) (value : T) :
    Op (LockFreeArray T) Unit := do
  let current_descriptor := (← Op.get).descriptor_
  let current_size : Int := toInt current_descriptor.size_
  let wDescriptor := current_descriptor.writeDescriptor_
  let _ ← CompleteWrite wDescriptor
  let h ← Op.ofOption (HighestBitSet ((toSizeT current_size + kFirstBucketCapacity) % 2 ^ 64))
  let h0 ← Op.ofOption (HighestBitSet kFirstBucketCapacity)
  let bucket := h - h0
  if (← bucket_load bucket).isNone then AllocBucket fresh bucket
  let oldValue ← slot_load (← Op.ofOption (At (toSizeT current_size)))
  let write_op : write_descriptor T :=
    { old_value_ := oldValue, new_value_ := value, location_ := toSizeT current_size,
      completed_ := false }
  if 2 ^ 31 ≤ current_size + 1 then Op.ub
  else
    let new_descriptor : v_descriptor T :=
      { size_ := toSizeT (current_size + 1), writeDescriptor_ := write_op }
    Op.set { (← Op.get) with descriptor_ := new_descriptor }
    let _ ← CompleteWrite new_descriptor.writeDescriptor_
    pure ()

/-- `PopBack()`, one pass through the loop body. -/
def PopBack [DecidableEq T] [Inhabited T] : Op (LockFreeArray T) T := do
  let current_descriptor := (← Op.get).descriptor_
  let current_size : Int := toInt current_descriptor.size_
  let wDescriptor := current_descriptor.writeDescriptor_
  let _ ← CompleteWrite wDescriptor
  if current_size = 0 then Op.throw Exn.out_of_range
  else if current_size - 1 < -(2 ^ 31) then Op.ub
  else
    let elem ← slot_load (← Op.ofOption (At (toSizeT (current_size - 1))))
    let new_descriptor : v_descriptor T :=
      { size_ := toSizeT (current_size - 1), writeDescriptor_ := default }
    Op.set { (← Op.get) with descriptor_ := new_descriptor }
    pure elem

/-- Run `PushBack` on each value of a list, in order. -/
def pushAll [DecidableEq T] (fresh : Nat → Nat → T) : List T → Op (LockFreeArray T) Unit
  | [] => pure ()
  | v :: vs => do
    PushBack fresh v
    pushAll fresh vs

/-- Run `PopBack` `n` times and collect the returned values, first one first. -/
def popN [DecidableEq T] [Inhabited T] : Nat → Op (LockFreeArray T) (List T)
  | 0 => pure []
  | n + 1 => do
    let v ← PopBack
    let r ← popN n
    pure (v :: r)

/-- Element arrays whose slots all start at 0, as value-initialised atomics do. -/
def zeroed : Nat → Nat → Nat := fun _ _ => 0

/-- Bucket pointers of which number 2 holds a non-null pointer to no array and the others are
null. -/
def wild2 : Nat → Option (List Nat) := fun b => if b = 2 then some [] else none

/-- The state of a container with zeroed slots and null bucket pointers after `PushBack(5)`. -/
def one_push : LockFreeArray Nat :=
  match PushBack zeroed 5 (LockFreeArray.new zeroed nulls) with
  | .ok _ a => a
  | _ => LockFreeArray.new zeroed nulls

/-- The state after `PushBack(1)`, ..., `PushBack(6)` on a container with zeroed slots whose
bucket pointer 2 is the non-null pointer to no array of `wild2`. -/
def six_pushes : LockFreeArray Nat :=
  match pushAll zeroed [1, 2, 3, 4, 5, 6] (LockFreeArray.new zeroed wild2) with
  | .ok _ a => a
  | _ => LockFreeArray.new zeroed wild2

/-- Client code `At(i)->load()`. -/
def load_at (i : Nat) : Op (LockFreeArray T) T := do
  slot_load (← Op.ofOption (At i))

/-- Client code `At(i)->store(v)`. -/
def store_at (i : Nat) (v : T) : Op (LockFreeArray T) Unit := do
  slot_store (← Op.ofOption (At i)) v

/-- Contents of the element slot `p` of a bucket table, if that slot exists. -/
def peekSlot (d : List (Option (List T))) (p : Slot) : Option T :=
  match d[p.1]? with
  | some (some bucket) => bucket[p.2]?
  | _ => none

/-- Contents of the element slot of index `i`, if that slot exists. -/
def peek (a : LockFreeArray T) (i : Nat) : Option T :=
  match At i with
  | some p => peekSlot a.data_ p
  | none => none

/-- The bucket table has its 32 entries, only buckets below 30 are allocated, and an allocated
bucket `b` has `2^(b+1)` slots. -/
def WF (a : LockFreeArray T) : Prop :=
  a.data_.length = kNumberOfBuckets ∧
    ∀ b bucket, a.data_[b]? = some (some bucket) → b < 30 ∧ bucket.length = 2 ^ (b + 1)

/-- The container holds exactly the values `vs`: the descriptor size is their number, slot `i`
holds `vs[i]`, and a write descriptor that is not marked completed is the write of the last
value. -/
def Holds (a : LockFreeArray T) (vs : List T) : Prop :=
  WF a ∧ a.descriptor_.size_ = vs.length ∧ vs.length + 2 ≤ 2 ^ 31 ∧
    (∀ i, i < vs.length → peek a i = vs[i]?) ∧
    (a.descriptor_.writeDescriptor_.completed_ = true ∨
      (a.descriptor_.writeDescriptor_.location_ + 1 = vs.length ∧
        vs[a.descriptor_.writeDescriptor_.location_]? =
          some a.descriptor_.writeDescriptor_.new_value_))

/-- The container keeps the values `vs`, whatever its buckets look like: the descriptor size
is their number, below the `int` limit, slot `i` exists and holds `vs[i]`, and a write
descriptor that is not marked completed is the write of the last value. -/
def Keeps (a : LockFreeArray T) (vs : List T) : Prop :=
  a.data_.length = kNumberOfBuckets ∧ a.descriptor_.size_ = vs.length ∧ vs.length < 2 ^ 31 ∧
    (∀ i, i < vs.length → peek a i = vs[i]?) ∧
    (a.descriptor_.writeDescriptor_.completed_ = true ∨
      (a.descriptor_.writeDescriptor_.location_ + 1 = vs.length ∧
        vs[a.descriptor_.writeDescriptor_.location_]? =
          some a.descriptor_.writeDescriptor_.new_value_))

/-- States a single thread can reach from a freshly constructed container by calls of
`PushBack` and `PopBack`, whether a call returns or throws. -/
inductive Reachable [DecidableEq T] [Inhabited T] : LockFreeArray T → Prop where
  | new (fresh : Nat → Nat → T) (junk : Nat → Option (List T)) :
      Reachable (LockFreeArray.new fresh junk)
  | push (fresh : Nat → Nat → T) (v : T) (a a1 : LockFreeArray T) :
      Reachable a → PushBack fresh v a = .ok () a1 → Reachable a1
  | push_throws (fresh : Nat → Nat → T) (v : T) (e : Exn) (a a1 : LockFreeArray T) :
      Reachable a → PushBack fresh v a = .throws e a1 → Reachable a1
  | pop (v : T) (a a1 : LockFreeArray T) :
      Reachable a → PopBack a = .ok v a1 → Reachable a1
  | pop_throws (e : Exn) (a a1 : LockFreeArray T) :
      Reachable a → PopBack a = .throws e a1 → Reachable a1

/-- The array size `AllocBucket(bucket)` computes:
`1 << (bucket + HighestBitSet(kFirstBucketCapacity))` in `int`. -/
def bucketSize (bucket : Int) : Option Int := do
  let h0 ← HighestBitSet kFirstBucketCapacity
  shl1 (bucket + h0)

/-- One call of `PushBack` or `PopBack` by the single thread, whether it returns or throws. -/
inductive Step [DecidableEq T] [Inhabited T] : LockFreeArray T → LockFreeArray T → Prop where
  | push (fresh : Nat → Nat → T) (v : T) (a a1 : LockFreeArray T) :
      PushBack fresh v a = .ok () a1 → Step a a1
  | push_throws (fresh : Nat → Nat → T) (v : T) (e : Exn) (a a1 : LockFreeArray T) :
      PushBack fresh v a = .throws e a1 → Step a a1
  | pop (v : T) (a a1 : LockFreeArray T) : PopBack a = .ok v a1 → Step a a1
  | pop_throws (e : Exn) (a a1 : LockFreeArray T) : PopBack a = .throws e a1 → Step a a1

/-- The contents `bucket1` are those of the array `bucket` after some element stores: the
array was written to, not exchanged for another one. -/
inductive ElementStores : List T → List T → Prop where
  | refl (bucket : List T) : ElementStores bucket bucket
  | store (bucket bucket1 : List T) (o : Nat) (v : T) :
      ElementStores bucket bucket1 → ElementStores bucket (bucket1.set o v)

end ops


section facts

variable {T : Type}

/-! ## Integer facts -/

theorem toInt_of_lt (n : Nat) (h : n < 2 ^ 31) : toInt n = (n : Int) := by
  have h1 : n % 2 ^ 32 = n := Nat.mod_eq_of_lt (by omega)
  unfold toInt
  rw [h1, if_pos h]

theorem toSizeT_of_nonneg (n : Nat) (h : n < 2 ^ 64) : toSizeT (n : Int) = n := by
  unfold toSizeT
  have : ((n : Int) % 2 ^ 64) = (n : Int) := Int.emod_eq_of_lt (by omega) (by exact_mod_cast h)
  rw [this]; simp

theorem testBit_top (h x : Nat) (lo : 2 ^ h ≤ x) (hi : x < 2 ^ (h + 1)) :
    x.testBit h = true := by
  obtain ⟨r, rfl⟩ : ∃ r, x = 2 ^ h + r := ⟨x - 2 ^ h, by omega⟩
  have hr : r < 2 ^ h := by rw [pow_succ] at hi; omega
  rw [Nat.testBit_two_pow_add_eq, Nat.testBit_lt_two_pow hr]; rfl

theorem clzAux_of_bounds (k h x : Nat) (hk : h < k) (lo : 2 ^ h ≤ x) (hi : x < 2 ^ (h + 1)) :
    clzAux k x = k - 1 - h := by
  induction k with
  | zero => omega
  | succ k ih =>
    unfold clzAux
    by_cases e : h = k
    · subst e
      simp [testBit_top h x lo hi]
    · have hlt : h < k := by omega
      have hx : x < 2 ^ k := lt_of_lt_of_le hi (Nat.pow_le_pow_right (by norm_num) (by omega))
      simp [Nat.testBit_lt_two_pow hx, ih hlt]; omega

theorem HighestBitSet_of_bounds (h x : Nat) (lo : 2 ^ h ≤ x) (hi : x < 2 ^ (h + 1))
    (hh : h < 32) : HighestBitSet x = some (h : Int) := by
  have hx : x < 2 ^ 32 := lt_of_lt_of_le hi (Nat.pow_le_pow_right (by norm_num) (by omega))
  have hpos : 0 < 2 ^ h := Nat.two_pow_pos h
  have hm : x % 2 ^ 32 = x := Nat.mod_eq_of_lt hx
  have hne : x ≠ 0 := by omega
  simp only [HighestBitSet, toUnsigned, builtin_clz, hm, hne, if_false]
  rw [clzAux_of_bounds 32 h x hh lo hi]
  have e : (31 : Int) - ((32 - 1 - h : Nat) : Int) = (h : Int) := by omega
  rw [e]

theorem HighestBitSet_first : HighestBitSet kFirstBucketCapacity = some 1 := by decide

theorem shl1_of_le (h : Nat) (hh : h ≤ 30) : shl1 (h : Int) = some ((2 ^ h : Nat) : Int) := by
  have h1 : (2 : Nat) ^ h < 2 ^ 31 := Nat.pow_lt_pow_right (by norm_num) (by omega)
  have h2 : (0 : Int) ≤ (h : Int) ∧ (h : Int) < 32 := by omega
  simp only [shl1, h2, and_self, if_true, Int.toNat_ofNat]
  rw [toInt_of_lt _ h1]

theorem xor_top (h r : Nat) (hr : r < 2 ^ h) : (2 ^ h + r) ^^^ 2 ^ h = r := by
  apply Nat.eq_of_testBit_eq
  intro j
  rw [Nat.testBit_xor]
  rcases Nat.lt_trichotomy j h with hj | hj | hj
  · rw [Nat.testBit_two_pow_add_gt hj, Nat.testBit_two_pow]
    have : ¬ h = j := by omega
    simp [this]
  · subst hj
    rw [Nat.testBit_two_pow_add_eq, Nat.testBit_two_pow_self, Nat.testBit_lt_two_pow hr]; rfl
  · have h1 : 2 ^ h + r < 2 ^ j := by
      have : 2 ^ (h + 1) ≤ 2 ^ j := Nat.pow_le_pow_right (by norm_num) (by omega)
      rw [pow_succ] at this; omega
    have h2 : r < 2 ^ j := by omega
    rw [Nat.testBit_lt_two_pow h1, Nat.testBit_lt_two_pow h2, Nat.testBit_two_pow]
    have : ¬ h = j := by omega
    simp [this]

/-- Closed form of `At` below the `int` limit, for `h` the highest set bit of `index + 2`. -/
theorem At_of_bounds (i h : Nat) (lo : 2 ^ h ≤ i + 2) (hi : i + 2 < 2 ^ (h + 1))
    (hh : h ≤ 30) : At i = some (h - 1, i + 2 - 2 ^ h) := by
  have h1 : 1 ≤ h := by
    rcases h with _ | h
    · simp at hi
    · omega
  have hlt : i + 2 < 2 ^ 64 :=
    lt_of_lt_of_le hi (Nat.pow_le_pow_right (by norm_num) (by omega))
  have hpos : (2 : Nat) ^ h < 2 ^ 64 := by omega
  have hm : (i + 2) % 2 ^ 64 = i + 2 := Nat.mod_eq_of_lt hlt
  have hb : (0 : Int) ≤ (h : Int) - 1 ∧ (h : Int) - 1 < ((32 : Nat) : Int) := by omega
  have e : (2 ^ h + (i + 2 - 2 ^ h)) = i + 2 := by omega
  have hx : (i + 2) ^^^ 2 ^ h = i + 2 - 2 ^ h := by
    have := xor_top h (i + 2 - 2 ^ h) (by rw [pow_succ] at hi; omega)
    rwa [e] at this
  have ht : ((h : Int) - 1).toNat = h - 1 := by omega
  simp only [At, kFirstBucketCapacity, kNumberOfBuckets, hm, HighestBitSet_of_bounds h (i + 2) lo hi (by omega),
    shl1_of_le h hh, toSizeT_of_nonneg _ hpos, hx, Option.bind_eq_bind, Option.some_bind,
    Option.pure_def]
  have hf := HighestBitSet_first
  simp only [kFirstBucketCapacity] at hf
  simp only [hf, Option.some_bind]
  simp [ht]
  omega


/-! ## Running operations -/

theorem bind_eq {σ α β : Type} (m : Op σ α) (f : α → Op σ β) (s : σ) :
    (m >>= f) s = match m s with
      | .ok r s1 => f r s1
      | .throws e s1 => .throws e s1
      | .undefined => .undefined := rfl

theorem pure_eq {σ α : Type} (r : α) (s : σ) : (pure r : Op σ α) s = .ok r s := rfl

theorem set_same {α : Type} (l : List α) (i : Nat) (v : α) (h : l[i]? = some v) :
    l.set i v = l := by
  apply List.ext_getElem?
  intro j
  rw [List.getElem?_set]
  split
  · next e => subst e; rw [h]; simp [(List.getElem?_eq_some.mp h).1]
  · rfl

theorem slot_load_of_peek (a : LockFreeArray T) (p : Slot) (v : T)
    (h : peekSlot a.data_ p = some v) : slot_load p a = .ok v a := by
  unfold peekSlot at h
  unfold slot_load
  split at h
  · simp only [h]
  · cases h

theorem slot_store_same (a : LockFreeArray T) (p : Slot) (v : T)
    (h : peekSlot a.data_ p = some v) : slot_store p v a = .ok () a := by
  unfold peekSlot at h
  unfold slot_store
  split at h
  · next bucket hb =>
    rw [if_pos (List.getElem?_eq_some.mp h).1, set_same bucket _ _ h, set_same _ _ _ hb]
  · cases h

theorem slot_compare_exchange_same [DecidableEq T] (a : LockFreeArray T) (p : Slot)
    (old v : T) (h : peekSlot a.data_ p = some v) :
    ∃ b, slot_compare_exchange p old v a = .ok b a := by
  by_cases e : v = old
  · subst e
    exact ⟨true, by
      simp only [slot_compare_exchange, bind_eq, pure_eq, slot_load_of_peek a p v h, if_true,
        slot_store_same a p v h]⟩
  · exact ⟨false, by
      simp only [slot_compare_exchange, bind_eq, pure_eq, slot_load_of_peek a p v h, e, if_false]⟩

theorem CompleteWrite_of_holds [DecidableEq T] (a : LockFreeArray T) (vs : List T)
    (h : Holds a vs) : ∃ w, CompleteWrite a.descriptor_.writeDescriptor_ a = .ok w a := by
  obtain ⟨_, _, _, hel, hw⟩ := h
  unfold CompleteWrite
  by_cases hc : a.descriptor_.writeDescriptor_.completed_ = true
  · exact ⟨a.descriptor_.writeDescriptor_, by simp [hc, pure_eq]⟩
  · rcases hw with hc1 | ⟨hl, hv⟩
    · exact absurd hc1 hc
    · have hp := hel a.descriptor_.writeDescriptor_.location_ (by omega)
      rw [hv] at hp
      unfold peek at hp
      split at hp
      · next p hA =>
        obtain ⟨b, hb⟩ := slot_compare_exchange_same a p
          a.descriptor_.writeDescriptor_.old_value_ _ hp
        refine ⟨{ a.descriptor_.writeDescriptor_ with completed_ := true }, ?_⟩
        have hc2 : a.descriptor_.writeDescriptor_.completed_ = false := by simpa using hc
        simp only [hc2, Bool.not_false, if_true, hA, Op.ofOption, bind_eq, pure_eq, hb]
      · cases hp

theorem PopBack_of_holds_nil [DecidableEq T] [Inhabited T] (a : LockFreeArray T)
    (h : Holds a []) : PopBack a = .throws Exn.out_of_range a := by
  obtain ⟨w, hw⟩ := CompleteWrite_of_holds a [] h
  have hs : a.descriptor_.size_ = 0 := h.2.1
  have hi : toInt 0 = 0 := by decide
  simp only [PopBack, bind_eq, pure_eq, Op.get, hw, hs, hi, if_true, Op.throw]

theorem PopBack_of_holds_snoc [DecidableEq T] [Inhabited T] (a : LockFreeArray T)
    (vs : List T) (v : T) (h : Holds a (vs ++ [v])) :
    PopBack a = .ok v { a with descriptor_ := { size_ := vs.length, writeDescriptor_ := default } } := by
  obtain ⟨w, hw⟩ := CompleteWrite_of_holds a _ h
  obtain ⟨_, hs, hb, hel, _⟩ := h
  simp only [List.length_append, List.length_singleton] at hs hb hel
  have hi : toInt (vs.length + 1) = ((vs.length + 1 : Nat) : Int) := toInt_of_lt _ (by omega)
  have hp := hel vs.length (by omega)
  simp only [List.getElem?_concat_length] at hp
  unfold peek at hp
  split at hp
  · next p hA =>
    have hload := slot_load_of_peek a p _ hp
    have h0 : ¬ (((vs.length + 1 : Nat) : Int) = 0) := by omega
    have h1 : ¬ (((vs.length + 1 : Nat) : Int) - 1 < -(2 ^ 31)) := by omega
    have h2 : toSizeT (((vs.length + 1 : Nat) : Int) - 1) = vs.length := by
      have : (((vs.length + 1 : Nat) : Int) - 1) = (vs.length : Int) := by omega
      rw [this, toSizeT_of_nonneg _ (by omega)]
    simp only [PopBack, bind_eq, pure_eq, Op.get, Op.set, hw, hs, hi, h0, h1, h2, if_false, hA,
      Op.ofOption, hload]
  · cases hp

theorem exists_hibit (i : Nat) (hi : i + 2 < 2 ^ 31) :
    ∃ h, 1 ≤ h ∧ h ≤ 30 ∧ 2 ^ h ≤ i + 2 ∧ i + 2 < 2 ^ (h + 1) := by
  have hne : i + 2 ≠ 0 := by omega
  refine ⟨Nat.log2 (i + 2), ?_, ?_, Nat.log2_self_le hne, Nat.lt_log2_self⟩
  · exact (Nat.le_log2 hne).mpr (by norm_num)
  · have := (Nat.log2_lt hne).mpr hi
    omega

theorem At_inj (i j : Nat) (p : Slot) (hi : i + 2 < 2 ^ 31) (hj : j + 2 < 2 ^ 31)
    (h1 : At i = some p) (h2 : At j = some p) : i = j := by
  obtain ⟨h, a1, a2, a3, a4⟩ := exists_hibit i hi
  obtain ⟨k, b1, b2, b3, b4⟩ := exists_hibit j hj
  rw [At_of_bounds i h a3 a4 a2] at h1
  rw [At_of_bounds j k b3 b4 b2] at h2
  rw [← h2] at h1
  simp only [Option.some.injEq, Prod.mk.injEq] at h1
  have e : h = k := by omega
  subst e
  omega

theorem peekSlot_set (d : List (Option (List T))) (b o : Nat) (bucket : List T) (v : T)
    (hb : d[b]? = some (some bucket)) (ho : o < bucket.length) :
    peekSlot (d.set b (some (bucket.set o v))) (b, o) = some v := by
  have hlen : b < d.length := (List.getElem?_eq_some.mp hb).1
  simp only [peekSlot, List.getElem?_set_self hlen, List.getElem?_set_self ho]

theorem peekSlot_set_other (d d1 : List (Option (List T))) (b o : Nat) (bucket : List T)
    (v : T) (p : Slot) (hp : p ≠ (b, o)) (hb : d1[b]? = some (some bucket))
    (hframe : ∀ c, c ≠ b → d1[c]? = d[c]?)
    (hkeep : ∀ bk, d[b]? = some (some bk) → bk = bucket)
    (hsome : (peekSlot d p).isSome) :
    peekSlot (d1.set b (some (bucket.set o v))) p = peekSlot d p := by
  obtain ⟨c, k⟩ := p
  by_cases e : c = b
  · subst e
    have hk : k ≠ o := fun e => hp (by rw [e])
    have hlen : c < d1.length := (List.getElem?_eq_some.mp hb).1
    unfold peekSlot at hsome ⊢
    simp only [List.getElem?_set_self hlen]
    cases hd : d[c]? with
    | none => simp [hd] at hsome
    | some x =>
      cases x with
      | none => simp [hd] at hsome
      | some bk =>
        have := hkeep bk hd
        subst this
        simp only [List.getElem?_set_ne (Ne.symm hk)]
  · unfold peekSlot
    simp only [List.getElem?_set_ne (Ne.symm e), hframe c e]

theorem Holds_push (a : LockFreeArray T) (vs : List T) (v old : T)
    (d1 : List (Option (List T))) (b o : Nat) (bucket : List T)
    (h : Holds a vs) (hn : vs.length + 2 < 2 ^ 31)
    (hA : At vs.length = some (b, o))
    (hlen : d1.length = kNumberOfBuckets)
    (hb : d1[b]? = some (some bucket))
    (hb30 : b < 30)
    (hbl : bucket.length = 2 ^ (b + 1))
    (ho : o < 2 ^ (b + 1))
    (hframe : ∀ c, c ≠ b → d1[c]? = a.data_[c]?)
    (hkeep : ∀ bk, a.data_[b]? = some (some bk) → bk = bucket) :
    Holds { data_ := d1.set b (some (bucket.set o v)),
            descriptor_ := { size_ := vs.length + 1,
                             writeDescriptor_ := { old_value_ := old, new_value_ := v,
                                                   location_ := vs.length,
                                                   completed_ := false } } }
      (vs ++ [v]) := by
  obtain ⟨⟨_, hwf⟩, _, _, hel, _⟩ := h
  have hbd : b < d1.length := (List.getElem?_eq_some.mp hb).1
  refine ⟨⟨?_, ?_⟩, ?_, ?_, ?_, ?_⟩
  · simp only [List.length_set, hlen]
  · intro c bk hc
    simp only at hc
    by_cases e : c = b
    · subst e
      rw [List.getElem?_set_self hbd] at hc
      simp only [Option.some.injEq] at hc
      rw [← hc, List.length_set, hbl]
      exact ⟨hb30, rfl⟩
    · rw [List.getElem?_set_ne (Ne.symm e), hframe c e] at hc
      exact hwf c bk hc
  · simp
  · simp only [List.length_append, List.length_singleton]; omega
  · intro i hi
    simp only [List.length_append, List.length_singleton] at hi
    by_cases e : i = vs.length
    · subst e
      simp only [peek, hA, List.getElem?_concat_length]
      exact peekSlot_set d1 b o bucket v hb (by omega)
    · have hlt : i < vs.length := by omega
      have hpk := hel i hlt
      rw [List.getElem?_append_left hlt, ← hpk]
      rw [List.getElem?_eq_getElem hlt] at hpk
      unfold peek at hpk ⊢
      cases hAi : At i with
      | none => rfl
      | some p =>
        rw [hAi] at hpk
        simp only at hpk ⊢
        have hne : p ≠ (b, o) := by
          intro e2
          subst e2
          exact e (At_inj i vs.length _ (by omega) hn hAi hA)
        exact peekSlot_set_other a.data_ d1 b o bucket v p hne hb hframe hkeep
          (by rw [hpk]; rfl)
  · right
    simp

theorem slot_compare_exchange_hit [DecidableEq T] (a : LockFreeArray T) (b o : Nat)
    (bucket : List T) (old v : T) (hb : a.data_[b]? = some (some bucket))
    (ho : bucket[o]? = some old) :
    slot_compare_exchange (b, o) old v a =
      .ok true { a with data_ := a.data_.set b (some (bucket.set o v)) } := by
  have hlt : o < bucket.length := (List.getElem?_eq_some.mp ho).1
  simp only [slot_compare_exchange, slot_load, slot_store, bind_eq, pure_eq, hb, ho, if_true, hlt]

theorem CompleteWrite_hit [DecidableEq T] (d : List (Option (List T))) (dsc : v_descriptor T)
    (old v : T) (loc b o : Nat) (bucket : List T) (hA : At loc = some (b, o))
    (hb : d[b]? = some (some bucket)) (ho : bucket[o]? = some old) :
    CompleteWrite { old_value_ := old, new_value_ := v, location_ := loc, completed_ := false }
        { data_ := d, descriptor_ := dsc } =
      .ok { old_value_ := old, new_value_ := v, location_ := loc, completed_ := true }
        { data_ := d.set b (some (bucket.set o v)), descriptor_ := dsc } := by
  simp only [CompleteWrite, Bool.not_false, if_true, hA, Op.ofOption, bind_eq, pure_eq,
    slot_compare_exchange_hit { data_ := d, descriptor_ := dsc } b o bucket _ _ hb ho]

theorem AllocBucket_ok (fresh : Nat → Nat → T) (a : LockFreeArray T) (k : Nat)
    (k1 : 1 ≤ k) (k30 : k ≤ 30) (hlen : a.data_.length = kNumberOfBuckets) :
    AllocBucket fresh ((k : Int) - 1) a =
      .ok () { data_ := a.data_.set (k - 1) (some ((List.range (2 ^ k)).map (fresh (k - 1)))),
               descriptor_ := a.descriptor_ } := by
  have hbk : (0 : Int) ≤ (k : Int) - 1 ∧ (k : Int) - 1 < (kNumberOfBuckets : Int) := by
    simp only [kNumberOfBuckets]; omega
  have hbn : ((k : Int) - 1).toNat = k - 1 := by omega
  have hk : (k : Int) - 1 + 1 = (k : Int) := by omega
  have hkl : k - 1 < a.data_.length := by rw [hlen]; simp only [kNumberOfBuckets]; omega
  have hneg : ¬ (((2 ^ k : Nat) : Int) < 0) := by
    have := Int.ofNat_nonneg (2 ^ k)
    exact not_lt.mpr this
  have hget : a.data_[k - 1]? = some (a.data_.get ⟨k - 1, hkl⟩) := List.getElem?_eq_getElem _
  simp only [AllocBucket, bind_eq, pure_eq, Op.ofOption, HighestBitSet_first, hk,
    shl1_of_le k k30, bucket_load, hbk, and_self, if_true, hbn, hget, hneg, if_false, Op.get,
    Op.set, Int.toNat_ofNat]

/-- The run of `PushBack` in a state that holds `vs`, below the `int` limit: with `k` the highest
set bit of `vs.length + 2`, the call returns, the new state holds `vs ++ [v]`, and its bucket
table is the old one with slot `k - 1` set to the array `bucket` after the store of `v`, where
`bucket` is the array that slot held, or a newly allocated one if the slot was null. -/
theorem PushBack_effect [DecidableEq T] (fresh : Nat → Nat → T) (a : LockFreeArray T)
    (vs : List T) (v : T) (h : Holds a vs) (hn : vs.length + 2 < 2 ^ 31) :
    ∃ a1 k bucket, 1 ≤ k ∧ k ≤ 30 ∧ 2 ^ k ≤ vs.length + 2 ∧ vs.length + 2 < 2 ^ (k + 1) ∧
      PushBack fresh v a = .ok () a1 ∧ Holds a1 (vs ++ [v]) ∧
      a1.descriptor_.writeDescriptor_.completed_ = false ∧
      (a.data_[k - 1]? = some (some bucket) ∨
        (a.data_[k - 1]? = some none ∧ bucket = (List.range (2 ^ k)).map (fresh (k - 1)))) ∧
      a1.data_ = a.data_.set (k - 1) (some (bucket.set (vs.length + 2 - 2 ^ k) v)) := by
  obtain ⟨w, hw⟩ := CompleteWrite_of_holds a vs h
  obtain ⟨k, k1, k30, klo, khi⟩ := exists_hibit vs.length hn
  have hA := At_of_bounds vs.length k klo khi k30
  have hs : a.descriptor_.size_ = vs.length := h.2.1
  have hi : toInt vs.length = (vs.length : Int) := toInt_of_lt _ (by omega)
  have hsz : toSizeT (vs.length : Int) = vs.length := toSizeT_of_nonneg _ (by omega)
  have hm : (vs.length + kFirstBucketCapacity) % 2 ^ 64 = vs.length + 2 :=
    Nat.mod_eq_of_lt (by simp only [kFirstBucketCapacity]; omega)
  have hH := HighestBitSet_of_bounds k (vs.length + 2) klo khi (by omega)
  have hH0 := HighestBitSet_first
  have hbk : (0 : Int) ≤ (k : Int) - 1 ∧ (k : Int) - 1 < (kNumberOfBuckets : Int) := by
    simp only [kNumberOfBuckets]; omega
  have hbn : ((k : Int) - 1).toNat = k - 1 := by omega
  have hlen : a.data_.length = kNumberOfBuckets := h.1.1
  have hkl : k - 1 < a.data_.length := by rw [hlen]; simp only [kNumberOfBuckets]; omega
  have ho : vs.length + 2 - 2 ^ k < 2 ^ (k - 1 + 1) := by
    have : k - 1 + 1 = k := by omega
    rw [this]; rw [pow_succ] at khi; omega
  have hov : ¬ ((2 : Int) ^ 31 ≤ (vs.length : Int) + 1) := by omega
  have hsz1 : toSizeT ((vs.length : Int) + 1) = vs.length + 1 := by
    have : (vs.length : Int) + 1 = ((vs.length + 1 : Nat) : Int) := by omega
    rw [this, toSizeT_of_nonneg _ (by omega)]
  cases hd : a.data_[k - 1]? with
  | none => rw [List.getElem?_eq_none_iff] at hd; omega
  | some x =>
    cases x with
    | some bucket =>
      have hbl : bucket.length = 2 ^ (k - 1 + 1) := (h.1.2 _ _ hd).2
      have hold : bucket[vs.length + 2 - 2 ^ k]? = some (bucket.get ⟨_, by rw [hbl]; exact ho⟩) :=
        List.getElem?_eq_getElem _
      refine ⟨_, k, bucket, k1, k30, klo, khi, ?_,
        Holds_push a vs v (bucket.get ⟨_, by rw [hbl]; exact ho⟩) a.data_ (k - 1)
        (vs.length + 2 - 2 ^ k) bucket h hn hA hlen hd (by omega) hbl ho (fun _ _ => rfl)
        (fun bk hbk2 => by rw [hd] at hbk2; simpa using hbk2.symm), rfl, Or.inl hd, rfl⟩
      simp only [PushBack, bind_eq, pure_eq, Op.get, Op.set, hw, hs, hi, hsz, hm, hH, hH0,
        Op.ofOption, bucket_load, hbk, and_self, if_true, hbn, hd, Option.isNone_some,
        Bool.false_eq_true, if_false, hA, slot_load, hold, hov, hsz1]
      rw [CompleteWrite_hit a.data_ _ _ v vs.length (k - 1) _ bucket hA hd hold]
    | none =>
      have hal := AllocBucket_ok fresh a k k1 k30 hlen
      have hd1 : (a.data_.set (k - 1) (some ((List.range (2 ^ k)).map (fresh (k - 1)))))[k - 1]? =
          some (some ((List.range (2 ^ k)).map (fresh (k - 1)))) := List.getElem?_set_self hkl
      have hk : k - 1 + 1 = k := by omega
      have ho2 : vs.length + 2 - 2 ^ k < 2 ^ k := by rw [hk] at ho; exact ho
      have hold : ((List.range (2 ^ k)).map (fresh (k - 1)))[vs.length + 2 - 2 ^ k]? =
          some (fresh (k - 1) (vs.length + 2 - 2 ^ k)) := by
        rw [List.getElem?_map, List.getElem?_range ho2]; rfl
      refine ⟨_, k, (List.range (2 ^ k)).map (fresh (k - 1)), k1, k30, klo, khi, ?_,
        Holds_push a vs v (fresh (k - 1) (vs.length + 2 - 2 ^ k))
        (a.data_.set (k - 1) (some ((List.range (2 ^ k)).map (fresh (k - 1))))) (k - 1)
        (vs.length + 2 - 2 ^ k) _ h hn hA (by rw [List.length_set, hlen]) hd1 (by omega)
        (by rw [List.length_map, List.length_range, hk]) ho
        (fun c hc => List.getElem?_set_ne (Ne.symm hc))
        (fun bk hbk2 => by rw [hd] at hbk2; simp at hbk2), rfl, Or.inr ⟨hd, rfl⟩,
        List.set_set _ _ _ _⟩
      simp only [PushBack, bind_eq, pure_eq, Op.get, Op.set, hw, hs, hi, hsz, hm, hH, hH0,
        Op.ofOption, bucket_load, hbk, and_self, if_true, hbn, hd, Option.isNone_none,
        hal, hA, slot_load, hd1, hold, hov, hsz1, if_false]
      rw [CompleteWrite_hit _ _ _ v vs.length (k - 1) _ _ hA hd1 hold]

theorem PushBack_of_holds [DecidableEq T] (fresh : Nat → Nat → T) (a : LockFreeArray T)
    (vs : List T) (v : T) (h : Holds a vs) (hn : vs.length + 2 < 2 ^ 31) :
    ∃ a1, PushBack fresh v a = .ok () a1 ∧ Holds a1 (vs ++ [v]) ∧
      a1.descriptor_.writeDescriptor_.completed_ = false := by
  obtain ⟨a1, _, _, _, _, _, _, hrun, hh, hc, _⟩ := PushBack_effect fresh a vs v h hn
  exact ⟨a1, hrun, hh, hc⟩

theorem new_data_get [Inhabited T] (fresh : Nat → Nat → T) (junk : Nat → Option (List T))
    (b : Nat) :
    (LockFreeArray.new fresh junk).data_[b]? =
      if b = 0 then some (some ((List.range kFirstBucketCapacity).map (fresh 0)))
      else if b < kNumberOfBuckets then some (junk b) else none := by
  simp only [LockFreeArray.new, ← List.range_eq_range']
  rw [List.getElem?_set]
  by_cases e : b = 0
  · subst e
    simp [kNumberOfBuckets]
  · have e2 : ¬ 0 = b := fun h => e h.symm
    simp only [e, e2, if_false, List.getElem?_map]
    by_cases hb : b < kNumberOfBuckets
    · rw [List.getElem?_range hb]; simp [hb]
    · rw [List.getElem?_eq_none (by simpa using hb)]; simp [hb]

theorem new_data_length [Inhabited T] (fresh : Nat → Nat → T) (junk : Nat → Option (List T)) :
    (LockFreeArray.new fresh junk).data_.length = kNumberOfBuckets := by
  simp [LockFreeArray.new]

theorem Holds_new [Inhabited T] (fresh : Nat → Nat → T) :
    Holds (LockFreeArray.new fresh nulls) [] := by
  refine ⟨⟨new_data_length fresh nulls, ?_⟩, rfl, by simp, ?_, Or.inl rfl⟩
  · intro b bucket hb
    rw [new_data_get] at hb
    split at hb
    · next e =>
      subst e
      simp only [Option.some.injEq] at hb
      rw [← hb]
      simp [kFirstBucketCapacity]
    · split at hb
      · simp [nulls] at hb
      · cases hb
  · intro i hi
    simp at hi

theorem Holds_pop [Inhabited T] (a : LockFreeArray T) (vs : List T) (v : T)
    (h : Holds a (vs ++ [v])) :
    Holds { a with descriptor_ := { size_ := vs.length, writeDescriptor_ := default } } vs := by
  obtain ⟨hwf, _, hb, hel, _⟩ := h
  simp only [List.length_append, List.length_singleton] at hb hel
  refine ⟨hwf, rfl, by omega, ?_, Or.inl rfl⟩
  intro i hi
  have := hel i (by omega)
  rw [List.getElem?_append_left hi] at this
  exact this

theorem At_limit : At (2 ^ 31 - 2) = some (30, 2 ^ 64 - 2 ^ 32) := by decide

theorem PushBack_at_limit [DecidableEq T] (fresh : Nat → Nat → T) (a : LockFreeArray T)
    (vs : List T) (v : T) (h : Holds a vs) (hn : vs.length + 2 = 2 ^ 31) :
    PushBack fresh v a = .throws Exn.bad_array_new_length a := by
  obtain ⟨w, hw⟩ := CompleteWrite_of_holds a vs h
  have hlen : vs.length = 2 ^ 31 - 2 := by omega
  have hs : a.descriptor_.size_ = 2 ^ 31 - 2 := by rw [← hlen]; exact h.2.1
  have hi : toInt (2 ^ 31 - 2) = 2 ^ 31 - 2 := by decide
  have hsz : toSizeT (2 ^ 31 - 2) = 2 ^ 31 - 2 := by decide
  have hH : HighestBitSet ((2 ^ 31 - 2 + kFirstBucketCapacity) % 2 ^ 64) = some 31 := by decide
  have hH0 := HighestBitSet_first
  have hsh : shl1 (31 - 1 + 1) = some (-(2 ^ 31)) := by decide
  have hkl : 30 < a.data_.length := by rw [h.1.1]; decide
  cases hd : a.data_[30]? with
  | none => rw [List.getElem?_eq_none_iff] at hd; omega
  | some x =>
    cases x with
    | some bucket => exact absurd (h.1.2 _ _ hd).1 (by omega)
    | none =>
      have hb : (0 : Int) ≤ 31 - 1 ∧ (31 : Int) - 1 < (kNumberOfBuckets : Int) := by decide
      have hbn : ((31 : Int) - 1).toNat = 30 := by decide
      have hneg : (-(2 ^ 31) : Int) < 0 := by decide
      simp only [PushBack, bind_eq, pure_eq, Op.get, hw, hs, hi, hsz, hH, hH0, Op.ofOption,
        bucket_load, hb, and_self, if_true, hbn, hd, Option.isNone_none, AllocBucket, hsh,
        hneg, Op.throw]

theorem pushAll_holds [DecidableEq T] (fresh : Nat → Nat → T) (ws : List T) :
    ∀ (vs : List T) (a : LockFreeArray T), Holds a vs → vs.length + ws.length + 2 ≤ 2 ^ 31 →
      ∃ a1, pushAll fresh ws a = .ok () a1 ∧ Holds a1 (vs ++ ws) := by
  induction ws with
  | nil =>
    intro vs a h _
    exact ⟨a, rfl, by simpa using h⟩
  | cons w ws ih =>
    intro vs a h hb
    simp only [List.length_cons] at hb
    obtain ⟨a1, h1, hh, _⟩ := PushBack_of_holds fresh a vs w h (by omega)
    have hb2 : (vs ++ [w]).length + ws.length + 2 ≤ 2 ^ 31 := by
      simp only [List.length_append, List.length_singleton]; omega
    obtain ⟨a2, h2, hh2⟩ := ih (vs ++ [w]) a1 hh hb2
    refine ⟨a2, ?_, by simpa using hh2⟩
    simp only [pushAll, bind_eq, h1, h2]

theorem pushAll_reachable [DecidableEq T] [Inhabited T] (fresh : Nat → Nat → T)
    (ws : List T) : ∀ (a a1 : LockFreeArray T), Reachable a → pushAll fresh ws a = .ok () a1 →
      Reachable a1 := by
  induction ws with
  | nil =>
    intro a a1 h hrun
    cases hrun
    exact h
  | cons w ws ih =>
    intro a a1 h hrun
    simp only [pushAll, bind_eq] at hrun
    cases hp : PushBack fresh w a with
    | ok r s1 =>
      rw [hp] at hrun
      exact ih s1 a1 (Reachable.push fresh w a s1 h hp) hrun
    | throws e s1 => rw [hp] at hrun; cases hrun
    | undefined => rw [hp] at hrun; cases hrun

theorem popN_holds [DecidableEq T] [Inhabited T] (vs : List T) :
    ∀ (a : LockFreeArray T), Holds a vs →
      ∃ a1, popN vs.length a = .ok vs.reverse a1 ∧ Holds a1 [] := by
  induction vs using List.reverseRecOn with
  | nil =>
    intro a h
    exact ⟨a, rfl, h⟩
  | append_singleton ws v ih =>
    intro a h
    obtain ⟨a1, h1, hh⟩ := ih _ (Holds_pop a ws v h)
    refine ⟨a1, ?_, hh⟩
    simp only [List.length_append, List.length_singleton, popN, bind_eq, pure_eq,
      PopBack_of_holds_snoc a ws v h, h1, List.reverse_append, List.reverse_cons,
      List.reverse_nil, List.nil_append, List.singleton_append]

theorem load_at_of_holds (a : LockFreeArray T) (vs : List T) (h : Holds a vs) (i : Nat)
    (hi : i < vs.length) : load_at i a = .ok (vs.get ⟨i, hi⟩) a := by
  have hp := h.2.2.2.1 i hi
  rw [List.getElem?_eq_getElem hi] at hp
  unfold peek at hp
  split at hp
  · next p hA =>
    simp only [load_at, bind_eq, pure_eq, hA, Op.ofOption, slot_load_of_peek a p _ hp]
    rfl
  · cases hp

theorem capacity_run [DecidableEq T] [Inhabited T] (fresh : Nat → Nat → T) (vs : List T)
    (hlen : vs.length = 2 ^ 31 - 2) :
    ∃ a, pushAll fresh vs (LockFreeArray.new fresh nulls) = .ok () a ∧
      Reachable a ∧ a.descriptor_.size_ = 2 ^ 31 - 2 ∧
      ∀ v, PushBack fresh v a = .throws Exn.bad_array_new_length a := by
  obtain ⟨a, hrun, hh⟩ := pushAll_holds fresh vs [] _ (Holds_new fresh)
    (by simp only [List.length_nil]; omega)
  rw [List.nil_append] at hh
  refine ⟨a, hrun, pushAll_reachable fresh _ _ a (Reachable.new fresh nulls) hrun, ?_, ?_⟩
  · rw [hh.2.1, hlen]
  · intro v
    exact PushBack_at_limit fresh a _ v hh (by omega)

theorem pushAll_snoc [DecidableEq T] (fresh : Nat → Nat → T) (ws : List T) (w : T) :
    ∀ (a : LockFreeArray T),
      pushAll fresh (ws ++ [w]) a = (pushAll fresh ws >>= fun _ => PushBack fresh w) a := by
  induction ws with
  | nil =>
    intro a
    simp only [List.nil_append, pushAll, bind_eq, pure_eq]
    cases PushBack fresh w a <;> rfl
  | cons x ws ih =>
    intro a
    simp only [List.cons_append, pushAll, bind_eq]
    cases PushBack fresh x a with
    | ok r s1 => simpa only [bind_eq] using ih s1
    | throws e s1 => rfl
    | undefined => rfl

/-- After `n ≥ 1` appends on a freshly constructed container with null bucket pointers
`Size()` returns `n - 1`: the
write descriptor of the last `PushBack` is still not marked completed. -/
theorem Size_after_appends [DecidableEq T] [Inhabited T] (fresh : Nat → Nat → T)
    (ws : List T) (w : T) (hn : (ws ++ [w]).length + 2 < 2 ^ 31) :
    ∃ a, pushAll fresh (ws ++ [w]) (LockFreeArray.new fresh nulls) = .ok () a ∧
      a.descriptor_.size_ = ws.length + 1 ∧ Size a = ws.length := by
  simp only [List.length_append, List.length_singleton] at hn
  obtain ⟨a1, hrun, hh⟩ := pushAll_holds fresh ws [] _ (Holds_new fresh)
    (by simp only [List.length_nil]; omega)
  rw [List.nil_append] at hh
  obtain ⟨a2, h2, hh2, hc⟩ := PushBack_of_holds fresh a1 ws w hh (by omega)
  have hs : a2.descriptor_.size_ = ws.length + 1 := by rw [hh2.2.1]; simp
  refine ⟨a2, ?_, hs, ?_⟩
  · rw [pushAll_snoc, bind_eq, hrun]
    exact h2
  · have e : (ws.length + 1 + 2 ^ 64 - 1) % 2 ^ 64 = ws.length := by omega
    simp only [Size, hc, hs, Bool.not_false, if_true, e]

theorem AllocBucket_eq_bucketSize (fresh : Nat → Nat → T) (bucket : Int)
    (a : LockFreeArray T) :
    AllocBucket fresh bucket a =
      match bucketSize bucket with
      | none => .undefined
      | some n =>
        match bucket_load bucket a with
        | .ok _ a1 =>
          if n < 0 then .throws Exn.bad_array_new_length a1
          else .ok ()
            { data_ := a1.data_.set bucket.toNat (some ((List.range n.toNat).map (fresh bucket.toNat))),
              descriptor_ := a1.descriptor_ }
        | .throws e a1 => .throws e a1
        | .undefined => .undefined := by
  simp only [AllocBucket, bucketSize, HighestBitSet_first, Option.bind_eq_bind,
    Option.some_bind, Op.ofOption, bind_eq, pure_eq]
  cases shl1 (bucket + 1) with
  | none => rfl
  | some n =>
    simp only [Op.ofOption, pure_eq]
    cases bucket_load bucket a with
    | ok r s1 =>
      simp only []
      split <;> rfl
    | throws e s1 => rfl
    | undefined => rfl

theorem sum_bucket_capacities (b : Nat) :
    Finset.sum (Finset.range b) (fun c => kFirstBucketCapacity * 2 ^ c) = 2 ^ (b + 1) - 2 := by
  induction b with
  | zero => rfl
  | succ b ih =>
    rw [Finset.sum_range_succ, ih]
    have h1 : 2 ≤ 2 ^ (b + 1) := by
      have := Nat.pow_le_pow_right (show 0 < 2 by norm_num) (show 1 ≤ b + 1 by omega)
      simpa using this
    have h2 : (2 : Nat) ^ (b + 1 + 1) = 2 * 2 ^ (b + 1) := by rw [pow_succ, Nat.mul_comm]
    have h3 : kFirstBucketCapacity * 2 ^ b = 2 ^ (b + 1) := by
      rw [pow_succ, kFirstBucketCapacity, Nat.mul_comm]
    omega

theorem holds_descriptor (a : LockFreeArray T) (vs : List T) (h : Holds a vs) :
    (a.descriptor_.writeDescriptor_.completed_ = true ∨
      (a.descriptor_.writeDescriptor_.completed_ = false ∧ 1 ≤ a.descriptor_.size_ ∧
        a.descriptor_.writeDescriptor_.location_ = a.descriptor_.size_ - 1 ∧
        load_at (a.descriptor_.size_ - 1) a =
          .ok a.descriptor_.writeDescriptor_.new_value_ a)) ∧
      (a.descriptor_.writeDescriptor_.completed_ = true → Size a = a.descriptor_.size_) ∧
      (a.descriptor_.writeDescriptor_.completed_ = false → Size a + 1 = a.descriptor_.size_) ∧
      Size a ≤ a.descriptor_.size_ := by
  have hs : a.descriptor_.size_ = vs.length := h.2.1
  have hb : vs.length + 2 ≤ 2 ^ 31 := h.2.2.1
  have hsize1 : a.descriptor_.writeDescriptor_.completed_ = true →
      Size a = a.descriptor_.size_ := by
    intro hc
    simp [Size, hc]
  have hpend : a.descriptor_.writeDescriptor_.completed_ = false →
      a.descriptor_.writeDescriptor_.location_ + 1 = vs.length ∧
        vs[a.descriptor_.writeDescriptor_.location_]? =
          some a.descriptor_.writeDescriptor_.new_value_ := by
    intro hc
    rcases h.2.2.2.2 with hc1 | hp
    · rw [hc] at hc1; cases hc1
    · exact hp
  have hsize2 : a.descriptor_.writeDescriptor_.completed_ = false →
      Size a + 1 = a.descriptor_.size_ := by
    intro hc
    have := (hpend hc).1
    have e : (vs.length + 2 ^ 64 - 1) % 2 ^ 64 = vs.length - 1 := by omega
    simp only [Size, hc, hs, Bool.not_false, if_true, e]
    omega
  refine ⟨?_, hsize1, hsize2, ?_⟩
  · cases hc : a.descriptor_.writeDescriptor_.completed_ with
    | true => exact Or.inl rfl
    | false =>
      obtain ⟨hl, hv⟩ := hpend hc
      have hlt : a.descriptor_.size_ - 1 < vs.length := by omega
      have hload := load_at_of_holds a vs h _ hlt
      have hloc : a.descriptor_.writeDescriptor_.location_ = a.descriptor_.size_ - 1 := by omega
      refine Or.inr ⟨rfl, by omega, hloc, ?_⟩
      rw [hload]
      rw [hloc, List.getElem?_eq_getElem hlt] at hv
      simp only [Option.some.injEq] at hv
      rw [← hv]
      rfl
  · cases hc : a.descriptor_.writeDescriptor_.completed_ with
    | true => exact le_of_eq (hsize1 hc)
    | false => have := hsize2 hc; omega

theorem CompleteWrite_same [DecidableEq T] (a : LockFreeArray T) (old v : T) (loc : Nat)
    (p : Slot) (hA : At loc = some p) (hp : peekSlot a.data_ p = some v) :
    CompleteWrite { old_value_ := old, new_value_ := v, location_ := loc, completed_ := false } a =
      .ok { old_value_ := old, new_value_ := v, location_ := loc, completed_ := true } a := by
  obtain ⟨b, hb⟩ := slot_compare_exchange_same a p old v hp
  simp only [CompleteWrite, Bool.not_false, if_true, hA, Op.ofOption, bind_eq, pure_eq, hb]

theorem holds_slot (a : LockFreeArray T) (vs : List T) (h : Holds a vs) (i : Nat)
    (hi : i < vs.length) :
    ∃ b o bucket, At i = some (b, o) ∧ a.data_[b]? = some (some bucket) ∧
      bucket.length = kFirstBucketCapacity * 2 ^ b ∧ o < bucket.length := by
  have hp := h.2.2.2.1 i hi
  rw [List.getElem?_eq_getElem hi] at hp
  unfold peek at hp
  cases hA : At i with
  | none => rw [hA] at hp; cases hp
  | some q =>
    obtain ⟨b, o⟩ := q
    rw [hA] at hp
    simp only [peekSlot] at hp
    cases hb : a.data_[b]? with
    | none => rw [hb] at hp; cases hp
    | some y =>
      cases y with
      | none => rw [hb] at hp; cases hp
      | some bucket =>
        rw [hb] at hp
        simp only at hp
        refine ⟨b, o, bucket, rfl, hb, ?_, (List.getElem?_eq_some.mp hp).1⟩
        rw [(h.1.2 b bucket hb).2, pow_succ, kFirstBucketCapacity, Nat.mul_comm]

theorem ElementStores_trans (x y z : List T) (h1 : ElementStores x y)
    (h2 : ElementStores y z) : ElementStores x z := by
  induction h2 with
  | refl => exact h1
  | store w o v _ ih => exact ElementStores.store x w o v ih

theorem ElementStores_length (x y : List T) (h : ElementStores x y) : y.length = x.length := by
  induction h with
  | refl => rfl
  | store w o v _ ih => rw [List.length_set, ih]

theorem Step_reachable [DecidableEq T] [Inhabited T] (a a1 : LockFreeArray T)
    (h : Reachable a) (hs : Step a a1) : Reachable a1 := by
  cases hs with
  | push fresh v _ _ hrun => exact Reachable.push fresh v a a1 h hrun
  | push_throws fresh v e _ _ hrun => exact Reachable.push_throws fresh v e a a1 h hrun
  | pop v _ _ hrun => exact Reachable.pop v a a1 h hrun
  | pop_throws e _ _ hrun => exact Reachable.pop_throws e a a1 h hrun

theorem Later_reachable [DecidableEq T] [Inhabited T] (a a1 : LockFreeArray T)
    (h : Reachable a) (hl : Relation.ReflTransGen Step a a1) : Reachable a1 := by
  induction hl with
  | refl => exact h
  | tail _ hbc ih => exact Step_reachable _ _ ih hbc


/-! ## Runs from any initial bucket pointers -/

theorem Holds_keeps (a : LockFreeArray T) (vs : List T) (h : Holds a vs) : Keeps a vs :=
  ⟨h.1.1, h.2.1, by have := h.2.2.1; omega, h.2.2.2.1, h.2.2.2.2⟩

theorem Keeps_new [Inhabited T] (fresh : Nat → Nat → T) (junk : Nat → Option (List T)) :
    Keeps (LockFreeArray.new fresh junk) [] :=
  ⟨new_data_length fresh junk, rfl, by simp, fun i hi => by simp at hi, Or.inl rfl⟩

theorem CompleteWrite_of_keeps [DecidableEq T] (a : LockFreeArray T) (vs : List T)
    (h : Keeps a vs) : ∃ w, CompleteWrite a.descriptor_.writeDescriptor_ a = .ok w a := by
  obtain ⟨_, _, _, hel, hw⟩ := h
  by_cases hc : a.descriptor_.writeDescriptor_.completed_ = true
  · exact ⟨a.descriptor_.writeDescriptor_, by simp [CompleteWrite, hc, pure_eq]⟩
  · rcases hw with hc1 | ⟨hl, hv⟩
    · exact absurd hc1 hc
    · have hp := hel a.descriptor_.writeDescriptor_.location_ (by omega)
      rw [hv] at hp
      unfold peek at hp
      split at hp
      · next p hA =>
        have hc2 : a.descriptor_.writeDescriptor_.completed_ = false := by simpa using hc
        have := CompleteWrite_same a a.descriptor_.writeDescriptor_.old_value_
          a.descriptor_.writeDescriptor_.new_value_ a.descriptor_.writeDescriptor_.location_
          p hA hp
        rw [← hc2] at this
        exact ⟨_, this⟩
      · cases hp

theorem PopBack_of_keeps_nil [DecidableEq T] [Inhabited T] (a : LockFreeArray T)
    (h : Keeps a []) : PopBack a = .throws Exn.out_of_range a := by
  obtain ⟨w, hw⟩ := CompleteWrite_of_keeps a [] h
  have hs : a.descriptor_.size_ = 0 := h.2.1
  have hi : toInt 0 = 0 := by decide
  simp only [PopBack, bind_eq, pure_eq, Op.get, hw, hs, hi, if_true, Op.throw]

theorem PopBack_of_keeps_snoc [DecidableEq T] [Inhabited T] (a : LockFreeArray T)
    (vs : List T) (v : T) (h : Keeps a (vs ++ [v])) :
    PopBack a = .ok v { a with descriptor_ := { size_ := vs.length, writeDescriptor_ := default } } := by
  obtain ⟨w, hw⟩ := CompleteWrite_of_keeps a _ h
  obtain ⟨_, hs, hb, hel, _⟩ := h
  simp only [List.length_append, List.length_singleton] at hs hb hel
  have hi : toInt (vs.length + 1) = ((vs.length + 1 : Nat) : Int) := toInt_of_lt _ hb
  have hp := hel vs.length (by omega)
  simp only [List.getElem?_concat_length] at hp
  unfold peek at hp
  split at hp
  · next p hA =>
    have hload := slot_load_of_peek a p _ hp
    have h0 : ¬ (((vs.length + 1 : Nat) : Int) = 0) := by omega
    have h1 : ¬ (((vs.length + 1 : Nat) : Int) - 1 < -(2 ^ 31)) := by omega
    have h2 : toSizeT (((vs.length + 1 : Nat) : Int) - 1) = vs.length := by
      have : (((vs.length + 1 : Nat) : Int) - 1) = (vs.length : Int) := by omega
      rw [this, toSizeT_of_nonneg _ (by omega)]
    simp only [PopBack, bind_eq, pure_eq, Op.get, Op.set, hw, hs, hi, h0, h1, h2, if_false, hA,
      Op.ofOption, hload]
  · cases hp

theorem Keeps_pop [Inhabited T] (a : LockFreeArray T) (vs : List T) (v : T)
    (h : Keeps a (vs ++ [v])) :
    Keeps { a with descriptor_ := { size_ := vs.length, writeDescriptor_ := default } } vs := by
  obtain ⟨hlen, _, hb, hel, _⟩ := h
  simp only [List.length_append, List.length_singleton] at hb hel
  refine ⟨hlen, rfl, by omega, ?_, Or.inl rfl⟩
  intro i hi
  have := hel i (by omega)
  rw [List.getElem?_append_left hi] at this
  exact this

theorem At_bucket_lt (i : Nat) (hi : i + 2 < 2 ^ 31) (p : Slot) (h : At i = some p) :
    p.1 < 30 := by
  obtain ⟨k, k1, k30, klo, khi⟩ := exists_hibit i hi
  rw [At_of_bounds i k klo khi k30] at h
  simp only [Option.some.injEq] at h
  rw [← h]
  simp only
  omega

theorem At_inj_le (i j : Nat) (p : Slot) (hi : i + 2 ≤ 2 ^ 31) (hj : j + 2 ≤ 2 ^ 31)
    (h1 : At i = some p) (h2 : At j = some p) : i = j := by
  rcases Nat.lt_or_ge (i + 2) (2 ^ 31) with hi1 | hi1
  · rcases Nat.lt_or_ge (j + 2) (2 ^ 31) with hj1 | hj1
    · exact At_inj i j p hi1 hj1 h1 h2
    · have e : j = 2 ^ 31 - 2 := by omega
      subst e
      have := At_bucket_lt i hi1 p h1
      rw [At_limit] at h2
      simp only [Option.some.injEq] at h2
      rw [← h2] at this
      simp at this
  · have e : i = 2 ^ 31 - 2 := by omega
    subst e
    rcases Nat.lt_or_ge (j + 2) (2 ^ 31) with hj1 | hj1
    · have := At_bucket_lt j hj1 p h2
      rw [At_limit] at h1
      simp only [Option.some.injEq] at h1
      rw [← h1] at this
      simp at this
    · omega

theorem Keeps_push (a : LockFreeArray T) (vs : List T) (v old : T)
    (d1 : List (Option (List T))) (b o : Nat) (bucket : List T)
    (h : Keeps a vs) (hn : vs.length + 2 ≤ 2 ^ 31)
    (hA : At vs.length = some (b, o))
    (hlen : d1.length = kNumberOfBuckets)
    (hb : d1[b]? = some (some bucket))
    (ho : o < bucket.length)
    (hframe : ∀ c, c ≠ b → d1[c]? = a.data_[c]?)
    (hkeep : ∀ bk, a.data_[b]? = some (some bk) → bk = bucket) :
    Keeps { data_ := d1.set b (some (bucket.set o v)),
            descriptor_ := { size_ := vs.length + 1,
                             writeDescriptor_ := { old_value_ := old, new_value_ := v,
                                                   location_ := vs.length,
                                                   completed_ := false } } }
      (vs ++ [v]) := by
  obtain ⟨_, _, _, hel, _⟩ := h
  refine ⟨?_, ?_, ?_, ?_, ?_⟩
  · simp only [List.length_set, hlen]
  · simp
  · simp only [List.length_append, List.length_singleton]; omega
  · intro i hi
    simp only [List.length_append, List.length_singleton] at hi
    by_cases e : i = vs.length
    · subst e
      simp only [peek, hA, List.getElem?_concat_length]
      exact peekSlot_set d1 b o bucket v hb ho
    · have hlt : i < vs.length := by omega
      have hpk := hel i hlt
      rw [List.getElem?_append_left hlt, ← hpk]
      rw [List.getElem?_eq_getElem hlt] at hpk
      unfold peek at hpk ⊢
      cases hAi : At i with
      | none => rfl
      | some p =>
        rw [hAi] at hpk
        simp only at hpk ⊢
        have hne : p ≠ (b, o) := by
          intro e2
          subst e2
          exact e (At_inj_le i vs.length _ (by omega) hn hAi hA)
        exact peekSlot_set_other a.data_ d1 b o bucket v p hne hb hframe hkeep
          (by rw [hpk]; rfl)
  · right
    simp

theorem AllocBucket_top (fresh : Nat → Nat → T) (a : LockFreeArray T)
    (hlen : a.data_.length = kNumberOfBuckets) :
    AllocBucket fresh (((31 : Nat) : Int) - 1) a = .throws Exn.bad_array_new_length a := by
  have hsh : shl1 (((31 : Nat) : Int) - 1 + 1) = some (-(2 ^ 31)) := by decide
  have hb : (0 : Int) ≤ ((31 : Nat) : Int) - 1 ∧
      ((31 : Nat) : Int) - 1 < (kNumberOfBuckets : Int) := by decide
  have hbn : (((31 : Nat) : Int) - 1).toNat = 30 := by decide
  have hneg : (-(2 ^ 31) : Int) < 0 := by decide
  have hkl : 30 < a.data_.length := by rw [hlen]; decide
  have hget : a.data_[30]? = some (a.data_.get ⟨30, hkl⟩) := List.getElem?_eq_getElem _
  simp only [AllocBucket, bind_eq, pure_eq, Op.ofOption, HighestBitSet_first, hsh,
    bucket_load, hb, and_self, if_true, hbn, hget, hneg, Op.throw]

/-- The outcomes of `PushBack` in a state that keeps `vs`, when the slot of index `vs.length`
is slot `o` of bucket `k - 1` and the new size fits an `int`: undefined behaviour (the bucket
pointer is not null and gives no access to slot `o`), `bad_array_new_length` with the state
unchanged, or a normal return with `v` stored to slot `o` of the array in bucket `k - 1`,
which is the array that bucket held or, if its pointer was null, a newly allocated one. -/
theorem PushBack_keeps_core [DecidableEq T] (fresh : Nat → Nat → T) (a : LockFreeArray T)
    (vs : List T) (v : T) (k o : Nat) (h : Keeps a vs) (k1 : 1 ≤ k) (k31 : k ≤ 31)
    (klo : 2 ^ k ≤ vs.length + 2) (khi : vs.length + 2 < 2 ^ (k + 1))
    (hA : At vs.length = some (k - 1, o)) (hn : vs.length + 2 ≤ 2 ^ 31)
    (ho : k ≤ 30 → o < 2 ^ k) :
    PushBack fresh v a = .undefined ∨
      PushBack fresh v a = .throws Exn.bad_array_new_length a ∨
      ∃ bucket old,
        (a.data_[k - 1]? = some (some bucket) ∨
          (a.data_[k - 1]? = some none ∧ k ≤ 30 ∧
            bucket = (List.range (2 ^ k)).map (fresh (k - 1)))) ∧
        o < bucket.length ∧
        PushBack fresh v a = .ok ()
          { data_ := a.data_.set (k - 1) (some (bucket.set o v)),
            descriptor_ := { size_ := vs.length + 1,
                             writeDescriptor_ := { old_value_ := old, new_value_ := v,
                                                   location_ := vs.length,
                                                   completed_ := false } } } ∧
        Keeps
          { data_ := a.data_.set (k - 1) (some (bucket.set o v)),
            descriptor_ := { size_ := vs.length + 1,
                             writeDescriptor_ := { old_value_ := old, new_value_ := v,
                                                   location_ := vs.length,
                                                   completed_ := false } } }
          (vs ++ [v]) := by
  obtain ⟨w, hw⟩ := CompleteWrite_of_keeps a vs h
  have hs : a.descriptor_.size_ = vs.length := h.2.1
  have hi : toInt vs.length = (vs.length : Int) := toInt_of_lt _ (by omega)
  have hsz : toSizeT (vs.length : Int) = vs.length := toSizeT_of_nonneg _ (by omega)
  have hm : (vs.length + kFirstBucketCapacity) % 2 ^ 64 = vs.length + 2 :=
    Nat.mod_eq_of_lt (by simp only [kFirstBucketCapacity]; omega)
  have hH := HighestBitSet_of_bounds k (vs.length + 2) klo khi (by omega)
  have hH0 := HighestBitSet_first
  have hbk : (0 : Int) ≤ (k : Int) - 1 ∧ (k : Int) - 1 < (kNumberOfBuckets : Int) := by
    simp only [kNumberOfBuckets]; omega
  have hbn : ((k : Int) - 1).toNat = k - 1 := by omega
  have hlen : a.data_.length = kNumberOfBuckets := h.1
  have hkl : k - 1 < a.data_.length := by rw [hlen]; simp only [kNumberOfBuckets]; omega
  have hov : ¬ ((2 : Int) ^ 31 ≤ (vs.length : Int) + 1) := by omega
  have hsz1 : toSizeT ((vs.length : Int) + 1) = vs.length + 1 := by
    have : (vs.length : Int) + 1 = ((vs.length + 1 : Nat) : Int) := by omega
    rw [this, toSizeT_of_nonneg _ (by omega)]
  cases hd : a.data_[k - 1]? with
  | none => rw [List.getElem?_eq_none_iff] at hd; omega
  | some x =>
    cases x with
    | some bucket =>
      by_cases hob : o < bucket.length
      · have hold : bucket[o]? = some (bucket.get ⟨o, hob⟩) := List.getElem?_eq_getElem _
        refine Or.inr (Or.inr ⟨bucket, bucket.get ⟨o, hob⟩, Or.inl rfl, hob, ?_,
          Keeps_push a vs v (bucket.get ⟨o, hob⟩) a.data_ (k - 1) o bucket h hn hA hlen hd hob
            (fun _ _ => rfl) (fun bk hbk2 => by rw [hd] at hbk2; simpa using hbk2.symm)⟩)
        simp only [PushBack, bind_eq, pure_eq, Op.get, Op.set, hw, hs, hi, hsz, hm, hH, hH0,
          Op.ofOption, bucket_load, hbk, and_self, if_true, hbn, hd, Option.isNone_some,
          Bool.false_eq_true, if_false, hA, slot_load, hold, hov, hsz1]
        rw [CompleteWrite_hit a.data_ _ _ v vs.length (k - 1) _ bucket hA hd hold]
      · left
        have hold : bucket[o]? = none := List.getElem?_eq_none (by omega)
        simp only [PushBack, bind_eq, pure_eq, Op.get, Op.set, hw, hs, hi, hsz, hm, hH, hH0,
          Op.ofOption, bucket_load, hbk, and_self, if_true, hbn, hd, Option.isNone_some,
          Bool.false_eq_true, if_false, hA, slot_load, hold]
    | none =>
      by_cases k30 : k ≤ 30
      · have hal := AllocBucket_ok fresh a k k1 k30 hlen
        have hd1 : (a.data_.set (k - 1) (some ((List.range (2 ^ k)).map (fresh (k - 1)))))[k - 1]? =
            some (some ((List.range (2 ^ k)).map (fresh (k - 1)))) := List.getElem?_set_self hkl
        have ho2 : o < 2 ^ k := ho k30
        have hold : ((List.range (2 ^ k)).map (fresh (k - 1)))[o]? =
            some (fresh (k - 1) o) := by
          rw [List.getElem?_map, List.getElem?_range ho2]; rfl
        have hol : o < ((List.range (2 ^ k)).map (fresh (k - 1))).length := by
          rw [List.length_map, List.length_range]; exact ho2
        have hk := Keeps_push a vs v (fresh (k - 1) o)
          (a.data_.set (k - 1) (some ((List.range (2 ^ k)).map (fresh (k - 1))))) (k - 1)
          o _ h hn hA (by rw [List.length_set, hlen]) hd1 hol
          (fun c hc => List.getElem?_set_ne (Ne.symm hc))
          (fun bk hbk2 => by rw [hd] at hbk2; simp at hbk2)
        rw [List.set_set] at hk
        refine Or.inr (Or.inr ⟨(List.range (2 ^ k)).map (fresh (k - 1)), fresh (k - 1) o,
          Or.inr ⟨rfl, k30, rfl⟩, hol, ?_, hk⟩)
        simp only [PushBack, bind_eq, pure_eq, Op.get, Op.set, hw, hs, hi, hsz, hm, hH, hH0,
          Op.ofOption, bucket_load, hbk, and_self, if_true, hbn, hd, Option.isNone_none,
          hal, hA, slot_load, hd1, hold, hov, hsz1, if_false]
        rw [CompleteWrite_hit _ _ _ v vs.length (k - 1) _ _ hA hd1 hold, List.set_set]
      · have e : k = 31 := by omega
        subst e
        right; left
        have hal := AllocBucket_top fresh a hlen
        simp only [PushBack, bind_eq, pure_eq, Op.get, Op.set, hw, hs, hi, hsz, hm, hH, hH0,
          Op.ofOption, bucket_load, hbk, and_self, if_true, hbn, hd, Option.isNone_none,
          hal]

theorem At_over : At (2 ^ 31 - 1) = some (30, 2 ^ 64 - 2 ^ 32 + 1) := by decide

theorem PushBack_keeps_over [DecidableEq T] (fresh : Nat → Nat → T) (a : LockFreeArray T)
    (vs : List T) (v : T) (h : Keeps a vs) (hn : vs.length = 2 ^ 31 - 1) :
    PushBack fresh v a = .undefined ∨
      PushBack fresh v a = .throws Exn.bad_array_new_length a := by
  obtain ⟨w, hw⟩ := CompleteWrite_of_keeps a vs h
  have hs : a.descriptor_.size_ = vs.length := h.2.1
  have hi : toInt vs.length = (vs.length : Int) := toInt_of_lt _ (by omega)
  have hsz : toSizeT (vs.length : Int) = vs.length := toSizeT_of_nonneg _ (by omega)
  have hm : (vs.length + kFirstBucketCapacity) % 2 ^ 64 = vs.length + 2 :=
    Nat.mod_eq_of_lt (by simp only [kFirstBucketCapacity]; omega)
  have hH := HighestBitSet_of_bounds 31 (vs.length + 2) (by omega) (by omega) (by omega)
  have hH0 := HighestBitSet_first
  have hbk : (0 : Int) ≤ ((31 : Nat) : Int) - 1 ∧
      ((31 : Nat) : Int) - 1 < (kNumberOfBuckets : Int) := by decide
  have hbn : (((31 : Nat) : Int) - 1).toNat = 30 := by decide
  have hlen : a.data_.length = kNumberOfBuckets := h.1
  have hkl : 30 < a.data_.length := by rw [hlen]; decide
  have hA : At vs.length = some (30, 2 ^ 64 - 2 ^ 32 + 1) := by rw [hn]; exact At_over
  have hov : (2 : Int) ^ 31 ≤ (vs.length : Int) + 1 := by omega
  cases hd : a.data_[30]? with
  | none => rw [List.getElem?_eq_none_iff] at hd; omega
  | some x =>
    cases x with
    | some bucket =>
      left
      cases hold : bucket[2 ^ 64 - 2 ^ 32 + 1]? with
      | none =>
        simp only [PushBack, bind_eq, pure_eq, Op.get, Op.set, hw, hs, hi, hsz, hm, hH, hH0,
          Op.ofOption, bucket_load, hbk, and_self, if_true, hbn, hd, Option.isNone_some,
          Bool.false_eq_true, if_false, hA, slot_load, hold]
      | some old =>
        simp only [PushBack, bind_eq, pure_eq, Op.get, Op.set, hw, hs, hi, hsz, hm, hH, hH0,
          Op.ofOption, bucket_load, hbk, and_self, if_true, hbn, hd, Option.isNone_some,
          Bool.false_eq_true, if_false, hA, slot_load, hold, hov, Op.ub]
    | none =>
      right
      have hal := AllocBucket_top fresh a hlen
      simp only [PushBack, bind_eq, pure_eq, Op.get, Op.set, hw, hs, hi, hsz, hm, hH, hH0,
        Op.ofOption, bucket_load, hbk, and_self, if_true, hbn, hd, Option.isNone_none,
        hal]

/-- The outcomes of `PushBack` in any state that keeps `vs`: undefined behaviour,
`bad_array_new_length` with the state unchanged, or a normal return after which the state
keeps `vs ++ [v]` and the bucket table is the old one with `v` stored to one slot of one
array, the array the bucket held or a newly allocated one if its pointer was null. -/
theorem PushBack_keeps [DecidableEq T] (fresh : Nat → Nat → T) (a : LockFreeArray T)
    (vs : List T) (v : T) (h : Keeps a vs) :
    PushBack fresh v a = .undefined ∨
      PushBack fresh v a = .throws Exn.bad_array_new_length a ∨
      ∃ a1 b o bucket, PushBack fresh v a = .ok () a1 ∧ Keeps a1 (vs ++ [v]) ∧
        At vs.length = some (b, o) ∧
        (a.data_[b]? = some (some bucket) ∨ a.data_[b]? = some none) ∧
        a1.data_ = a.data_.set b (some (bucket.set o v)) := by
  have hb : vs.length < 2 ^ 31 := h.2.2.1
  rcases Nat.lt_or_ge (vs.length + 2) (2 ^ 31) with hlt | hge
  · obtain ⟨k, k1, k30, klo, khi⟩ := exists_hibit vs.length hlt
    have hA := At_of_bounds vs.length k klo khi k30
    have ho : k ≤ 30 → vs.length + 2 - 2 ^ k < 2 ^ k := by
      intro _; rw [pow_succ] at khi; omega
    rcases PushBack_keeps_core fresh a vs v k _ h k1 (by omega) klo khi hA (by omega) ho with
      hu | ht | ⟨bucket, old, hcase, _, hrun, hk⟩
    · exact Or.inl hu
    · exact Or.inr (Or.inl ht)
    · refine Or.inr (Or.inr ⟨_, k - 1, _, bucket, hrun, hk, hA, ?_, rfl⟩)
      rcases hcase with hc | ⟨hc, _⟩
      · exact Or.inl hc
      · exact Or.inr hc
  · rcases Nat.lt_or_ge (vs.length + 2) (2 ^ 31 + 1) with hlt2 | hge2
    · have e : vs.length = 2 ^ 31 - 2 := by omega
      have hA : At vs.length = some (31 - 1, 2 ^ 64 - 2 ^ 32) := by rw [e]; exact At_limit
      rcases PushBack_keeps_core fresh a vs v 31 _ h (by omega) (by omega) (by omega)
        (by omega) hA (by omega) (by omega) with hu | ht | ⟨bucket, old, hcase, _, hrun, hk⟩
      · exact Or.inl hu
      · exact Or.inr (Or.inl ht)
      · refine Or.inr (Or.inr ⟨_, 31 - 1, _, bucket, hrun, hk, hA, ?_, rfl⟩)
        rcases hcase with hc | ⟨hc, _⟩
        · exact Or.inl hc
        · exact Or.inr hc
    · rcases PushBack_keeps_over fresh a vs v h (by omega) with hu | ht
      · exact Or.inl hu
      · exact Or.inr (Or.inl ht)

theorem Reachable_keeps [DecidableEq T] [Inhabited T] (a : LockFreeArray T)
    (h : Reachable a) : ∃ vs, Keeps a vs := by
  induction h with
  | new fresh junk => exact ⟨[], Keeps_new fresh junk⟩
  | push fresh v a a1 _ hrun ih =>
    obtain ⟨vs, hv⟩ := ih
    rcases PushBack_keeps fresh a vs v hv with hu | ht | ⟨a2, _, _, _, h2, hk, _⟩
    · rw [hu] at hrun; cases hrun
    · rw [ht] at hrun; cases hrun
    · rw [h2] at hrun
      cases hrun
      exact ⟨_, hk⟩
  | push_throws fresh v e a a1 _ hrun ih =>
    obtain ⟨vs, hv⟩ := ih
    rcases PushBack_keeps fresh a vs v hv with hu | ht | ⟨a2, _, _, _, h2, _⟩
    · rw [hu] at hrun; cases hrun
    · rw [ht] at hrun
      cases hrun
      exact ⟨vs, hv⟩
    · rw [h2] at hrun; cases hrun
  | pop v a a1 _ hrun ih =>
    obtain ⟨vs, hv⟩ := ih
    rcases List.eq_nil_or_concat vs with e | ⟨ws, x, e⟩
    · subst e
      rw [PopBack_of_keeps_nil a hv] at hrun
      cases hrun
    · rw [List.concat_eq_append] at e
      subst e
      rw [PopBack_of_keeps_snoc a ws x hv] at hrun
      cases hrun
      exact ⟨ws, Keeps_pop a ws _ hv⟩
  | pop_throws e a a1 _ hrun ih =>
    obtain ⟨vs, hv⟩ := ih
    rcases List.eq_nil_or_concat vs with e | ⟨ws, x, e⟩
    · subst e
      rw [PopBack_of_keeps_nil a hv] at hrun
      cases hrun
      exact ⟨[], hv⟩
    · rw [List.concat_eq_append] at e
      subst e
      rw [PopBack_of_keeps_snoc a ws x hv] at hrun
      cases hrun

theorem load_at_of_keeps (a : LockFreeArray T) (vs : List T) (h : Keeps a vs) (i : Nat)
    (hi : i < vs.length) : load_at i a = .ok (vs.get ⟨i, hi⟩) a := by
  have hp := h.2.2.2.1 i hi
  rw [List.getElem?_eq_getElem hi] at hp
  unfold peek at hp
  split at hp
  · next p hA =>
    simp only [load_at, bind_eq, pure_eq, hA, Op.ofOption, slot_load_of_peek a p _ hp]
    rfl
  · cases hp

theorem keeps_descriptor (a : LockFreeArray T) (vs : List T) (h : Keeps a vs) :
    (a.descriptor_.writeDescriptor_.completed_ = true ∨
      (a.descriptor_.writeDescriptor_.completed_ = false ∧ 1 ≤ a.descriptor_.size_ ∧
        a.descriptor_.writeDescriptor_.location_ = a.descriptor_.size_ - 1 ∧
        load_at (a.descriptor_.size_ - 1) a =
          .ok a.descriptor_.writeDescriptor_.new_value_ a)) ∧
      (a.descriptor_.writeDescriptor_.completed_ = true → Size a = a.descriptor_.size_) ∧
      (a.descriptor_.writeDescriptor_.completed_ = false → Size a + 1 = a.descriptor_.size_) ∧
      Size a ≤ a.descriptor_.size_ := by
  have hs : a.descriptor_.size_ = vs.length := h.2.1
  have hb : vs.length < 2 ^ 31 := h.2.2.1
  have hsize1 : a.descriptor_.writeDescriptor_.completed_ = true →
      Size a = a.descriptor_.size_ := by
    intro hc
    simp [Size, hc]
  have hpend : a.descriptor_.writeDescriptor_.completed_ = false →
      a.descriptor_.writeDescriptor_.location_ + 1 = vs.length ∧
        vs[a.descriptor_.writeDescriptor_.location_]? =
          some a.descriptor_.writeDescriptor_.new_value_ := by
    intro hc
    rcases h.2.2.2.2 with hc1 | hp
    · rw [hc] at hc1; cases hc1
    · exact hp
  have hsize2 : a.descriptor_.writeDescriptor_.completed_ = false →
      Size a + 1 = a.descriptor_.size_ := by
    intro hc
    have := (hpend hc).1
    have e : (vs.length + 2 ^ 64 - 1) % 2 ^ 64 = vs.length - 1 := by omega
    simp only [Size, hc, hs, Bool.not_false, if_true, e]
    omega
  refine ⟨?_, hsize1, hsize2, ?_⟩
  · cases hc : a.descriptor_.writeDescriptor_.completed_ with
    | true => exact Or.inl rfl
    | false =>
      obtain ⟨hl, hv⟩ := hpend hc
      have hlt : a.descriptor_.size_ - 1 < vs.length := by omega
      have hload := load_at_of_keeps a vs h _ hlt
      have hloc : a.descriptor_.writeDescriptor_.location_ = a.descriptor_.size_ - 1 := by omega
      refine Or.inr ⟨rfl, by omega, hloc, ?_⟩
      rw [hload]
      rw [hloc, List.getElem?_eq_getElem hlt] at hv
      simp only [Option.some.injEq] at hv
      rw [← hv]
      rfl
  · cases hc : a.descriptor_.writeDescriptor_.completed_ with
    | true => exact le_of_eq (hsize1 hc)
    | false => have := hsize2 hc; omega

/-- One call of `PushBack` or `PopBack` in a reachable state leaves every non-null bucket
pointer in place, with at most one element stored to through it. -/
theorem Step_bucket [DecidableEq T] [Inhabited T] (a a1 : LockFreeArray T)
    (h : Reachable a) (hs : Step a a1) (b : Nat) (bucket : List T)
    (hb : a.data_[b]? = some (some bucket)) :
    a1.data_[b]? = some (some bucket) ∨
      ∃ o v, a1.data_[b]? = some (some (bucket.set o v)) := by
  obtain ⟨vs, hv⟩ := Reachable_keeps a h
  cases hs with
  | push fresh v _ _ hrun =>
    rcases PushBack_keeps fresh a vs v hv with hu | ht | ⟨a2, c, o, bk, h2, _, _, hcase, hdata⟩
    · rw [hu] at hrun; cases hrun
    · rw [ht] at hrun; cases hrun
    · rw [h2] at hrun
      cases hrun
      rw [hdata]
      by_cases e : b = c
      · subst e
        have hlen : b < a.data_.length := (List.getElem?_eq_some.mp hb).1
        rw [List.getElem?_set_self hlen]
        rcases hcase with hc | hc
        · rw [hb] at hc
          simp only [Option.some.injEq] at hc
          subst hc
          exact Or.inr ⟨_, _, rfl⟩
        · rw [hb] at hc
          simp at hc
      · rw [List.getElem?_set_ne (Ne.symm e)]
        exact Or.inl hb
  | push_throws fresh v e _ _ hrun =>
    rcases PushBack_keeps fresh a vs v hv with hu | ht | ⟨a2, _, _, _, h2, _⟩
    · rw [hu] at hrun; cases hrun
    · rw [ht] at hrun
      cases hrun
      exact Or.inl hb
    · rw [h2] at hrun; cases hrun
  | pop v _ _ hrun =>
    rcases List.eq_nil_or_concat vs with e | ⟨ws, x, e⟩
    · subst e
      rw [PopBack_of_keeps_nil a hv] at hrun
      cases hrun
    · rw [List.concat_eq_append] at e
      subst e
      rw [PopBack_of_keeps_snoc a ws x hv] at hrun
      cases hrun
      exact Or.inl hb
  | pop_throws e _ _ hrun =>
    rcases List.eq_nil_or_concat vs with e | ⟨ws, x, e⟩
    · subst e
      rw [PopBack_of_keeps_nil a hv] at hrun
      cases hrun
      exact Or.inl hb
    · rw [List.concat_eq_append] at e
      subst e
      rw [PopBack_of_keeps_snoc a ws x hv] at hrun
      cases hrun

theorem Later_bucket [DecidableEq T] [Inhabited T] (a a1 : LockFreeArray T)
    (h : Reachable a) (hl : Relation.ReflTransGen Step a a1) (b : Nat) (bucket : List T)
    (hb : a.data_[b]? = some (some bucket)) :
    ∃ bucket1, a1.data_[b]? = some (some bucket1) ∧ ElementStores bucket bucket1 := by
  induction hl with
  | refl => exact ⟨bucket, hb, ElementStores.refl bucket⟩
  | tail hab hbc ih =>
    obtain ⟨bk, hbk, hst⟩ := ih
    rcases Step_bucket _ _ (Later_reachable a _ h hab) hbc b bk hbk with h1 | ⟨o, v, h1⟩
    · exact ⟨bk, h1, hst⟩
    · exact ⟨_, h1, ElementStores.store bucket bk o v hst⟩

/-! ## Runs from null bucket pointers -/

/-- When the bucket pointers 1..31 of the freshly constructed container are null: for every
list of values `vs` with `vs.length + 2 < 2^31` and any initial contents `fresh` of the element
slots, the pushes of `vs` return and afterwards slot `At(i)` holds `vs[i]`. -/
theorem read_back_from_null_pointers [DecidableEq T] [Inhabited T] (fresh : Nat → Nat → T)
    (vs : List T) (hn : vs.length + 2 < 2 ^ 31) :
    ∃ a, pushAll fresh vs (LockFreeArray.new fresh nulls) = .ok () a ∧
      ∀ (i : Nat) (hi : i < vs.length), load_at i a = .ok (vs.get ⟨i, hi⟩) a := by
  obtain ⟨a, hrun, hh⟩ := pushAll_holds fresh vs [] _ (Holds_new fresh)
    (by simp only [List.length_nil]; omega)
  rw [List.nil_append] at hh
  exact ⟨a, hrun, fun i hi => load_at_of_holds a vs hh i hi⟩

/-- When the bucket pointers 1..31 of the freshly constructed container are null: after the
values of `vs` are pushed, `vs.length` calls of `PopBack()` return them last one first, and one
more call throws `out_of_range`. -/
theorem LIFO_from_null_pointers [DecidableEq T] [Inhabited T] (fresh : Nat → Nat → T)
    (vs : List T) (hn : vs.length + 2 < 2 ^ 31) :
    ∃ a1 a2, pushAll fresh vs (LockFreeArray.new fresh nulls) = .ok () a1 ∧
      popN vs.length a1 = .ok vs.reverse a2 ∧ PopBack a2 = .throws Exn.out_of_range a2 := by
  obtain ⟨a1, hrun, hh⟩ := pushAll_holds fresh vs [] _ (Holds_new fresh)
    (by simp only [List.length_nil]; omega)
  rw [List.nil_append] at hh
  obtain ⟨a2, hpop, hh2⟩ := popN_holds vs a1 hh
  exact ⟨a1, a2, hrun, hpop, PopBack_of_holds_nil a2 hh2⟩

/-- Below bucket 30 the size `AllocBucket(b)` computes in `int` is
`kFirstBucketCapacity * 2^b = 2^(b+1)`. -/
theorem bucketSize_below_30 (b : Nat) (hb : b < 30) :
    bucketSize (b : Int) = some ((kFirstBucketCapacity * 2 ^ b : Nat) : Int) ∧
      kFirstBucketCapacity * 2 ^ b = 2 ^ (b + 1) := by
  have e : kFirstBucketCapacity * 2 ^ b = 2 ^ (b + 1) := by
    rw [pow_succ, kFirstBucketCapacity, Nat.mul_comm]
  have hk : (b : Int) + 1 = ((b + 1 : Nat) : Int) := by omega
  refine ⟨?_, e⟩
  simp only [bucketSize, HighestBitSet_first, Option.bind_eq_bind, Option.some_bind, hk,
    shl1_of_le (b + 1) (by omega), e]

/-- The first three pushes on a container with zeroed slots and null bucket pointers, call by
call: the pushes of 5 and 6 store to the array of bucket 0 and leave every pointer as it was;
the push of 7 finds pointer 1 null and sets it to a new array of 4 slots, holding 7. -/
theorem first_three_pushes :
    ∃ a1 a2 a3, PushBack zeroed 5 (LockFreeArray.new zeroed nulls) = .ok () a1 ∧
      a1.data_ = (LockFreeArray.new zeroed nulls).data_.set 0 (some [5, 0]) ∧
      PushBack zeroed 6 a1 = .ok () a2 ∧ a2.data_ = a1.data_.set 0 (some [5, 6]) ∧
      a2.data_[1]? = some none ∧
      PushBack zeroed 7 a2 = .ok () a3 ∧ a3.data_ = a2.data_.set 1 (some [7, 0, 0, 0]) :=
  ⟨_, _, _, rfl, rfl, rfl, rfl, rfl, rfl, rfl⟩

/-! ## The claims -/

/-- C8 (index mapping): for every index `i` with `i + 2 < 2^31`, the highest set bit of the
position `i + 2` is `h = floor(log2(i + 2))`, that of `kFirstBucketCapacity` is 1, and `At(i)`
is the slot of bucket `h - 1` at offset `(i + 2) - 2^h`, an offset below the bucket capacity
`kFirstBucketCapacity * 2^(h - 1)`. -/
theorem At_index_mapping (i : Nat) (hi : i + 2 < 2 ^ 31) :
    HighestBitSet (i + kFirstBucketCapacity) = some (Nat.log2 (i + 2) : Int) ∧
      HighestBitSet kFirstBucketCapacity = some 1 ∧
      At i = some (Nat.log2 (i + 2) - 1, i + 2 - 2 ^ Nat.log2 (i + 2)) ∧
      i + 2 - 2 ^ Nat.log2 (i + 2) < kFirstBucketCapacity * 2 ^ (Nat.log2 (i + 2) - 1) := by
  have hne : i + 2 ≠ 0 := by omega
  have lo : 2 ^ Nat.log2 (i + 2) ≤ i + 2 := Nat.log2_self_le hne
  have hi2 : i + 2 < 2 ^ (Nat.log2 (i + 2) + 1) := Nat.lt_log2_self
  have h30 : Nat.log2 (i + 2) ≤ 30 := by
    have := (Nat.log2_lt hne).mpr hi
    omega
  have h1 : 1 ≤ Nat.log2 (i + 2) := (Nat.le_log2 hne).mpr (by norm_num)
  refine ⟨HighestBitSet_of_bounds _ _ lo hi2 (by omega), HighestBitSet_first,
    At_of_bounds i _ lo hi2 h30, ?_⟩
  have e : kFirstBucketCapacity * 2 ^ (Nat.log2 (i + 2) - 1) = 2 ^ Nat.log2 (i + 2) := by
    obtain ⟨m, hm⟩ : ∃ m, Nat.log2 (i + 2) = m + 1 := ⟨Nat.log2 (i + 2) - 1, by omega⟩
    rw [hm, Nat.add_sub_cancel, pow_succ, kFirstBucketCapacity, Nat.mul_comm]
  rw [e]
  rw [pow_succ] at hi2
  omega

/-- Instance of the index mapping at index 5: bucket 1, offset 3. -/
theorem At_index_mapping_witness :
    (5 : Nat) + 2 < 2 ^ 31 ∧
      (HighestBitSet (5 + kFirstBucketCapacity) = some (Nat.log2 (5 + 2) : Int) ∧
        HighestBitSet kFirstBucketCapacity = some 1 ∧
        At 5 = some (Nat.log2 (5 + 2) - 1, 5 + 2 - 2 ^ Nat.log2 (5 + 2)) ∧
        5 + 2 - 2 ^ Nat.log2 (5 + 2) < kFirstBucketCapacity * 2 ^ (Nat.log2 (5 + 2) - 1)) :=
  ⟨by decide, At_index_mapping 5 (by decide)⟩

/-- C15 (distinct, ordered, contiguous slots): for all indices `i`, `j` with `i + 2 < 2^31`
and `j + 2 < 2^31`, `At` maps `i` to a bucket `b` and an offset `o` below the capacity of `b`
with `i = (2^(b+1) - 2) + o`, which is the total capacity of the buckets `0..b-1` plus `o`;
`At(i)` and `At(j)` are the same slot only if `i = j`, and `i < j` puts the slot of `i`
lexicographically before the slot of `j`. -/
theorem At_slots_distinct_ordered (i j : Nat) (hi : i + 2 < 2 ^ 31) (hj : j + 2 < 2 ^ 31) :
    ∃ b o c p, At i = some (b, o) ∧ At j = some (c, p) ∧
      o < kFirstBucketCapacity * 2 ^ b ∧
      i = (2 ^ (b + 1) - 2) + o ∧
      i = Finset.sum (Finset.range b) (fun x => kFirstBucketCapacity * 2 ^ x) + o ∧
      ((b, o) = (c, p) → i = j) ∧
      (i < j → b < c ∨ (b = c ∧ o < p)) := by
  obtain ⟨h, h1, h30, hlo, hhi⟩ := exists_hibit i hi
  obtain ⟨k, k1, k30, klo, khi⟩ := exists_hibit j hj
  have hAi := At_of_bounds i h hlo hhi h30
  have hAj := At_of_bounds j k klo khi k30
  have e1 : h - 1 + 1 = h := by omega
  have hcap : kFirstBucketCapacity * 2 ^ (h - 1) = 2 ^ h := by
    have : (2 : Nat) ^ h = 2 ^ (h - 1 + 1) := by rw [e1]
    rw [this, pow_succ, kFirstBucketCapacity, Nat.mul_comm]
  have h2 : 2 ≤ 2 ^ h := by
    have := Nat.pow_le_pow_right (show 0 < 2 by norm_num) h1
    simpa using this
  have hhi2 : i + 2 < 2 * 2 ^ h := by rw [pow_succ] at hhi; omega
  refine ⟨h - 1, i + 2 - 2 ^ h, k - 1, j + 2 - 2 ^ k, hAi, hAj, ?_, ?_, ?_, ?_, ?_⟩
  · rw [hcap]; omega
  · rw [e1]; omega
  · rw [sum_bucket_capacities, e1]; omega
  · intro e
    exact At_inj i j _ hi hj hAi (by rw [hAj, e])
  · intro hlt
    rcases Nat.lt_trichotomy h k with hk | hk | hk
    · left; omega
    · subst hk; right; exact ⟨rfl, by omega⟩
    · exfalso
      have := Nat.pow_le_pow_right (show 0 < 2 by norm_num) (show k + 1 ≤ h by omega)
      omega

/-- Instance of the slot ordering at the indices 1 and 2, on the two sides of the first bucket
boundary. -/
theorem At_slots_distinct_ordered_witness :
    (1 : Nat) + 2 < 2 ^ 31 ∧ (2 : Nat) + 2 < 2 ^ 31 ∧
      ∃ b o c p, At 1 = some (b, o) ∧ At 2 = some (c, p) ∧
        o < kFirstBucketCapacity * 2 ^ b ∧
        1 = (2 ^ (b + 1) - 2) + o ∧
        1 = Finset.sum (Finset.range b) (fun x => kFirstBucketCapacity * 2 ^ x) + o ∧
        ((b, o) = (c, p) → 1 = 2) ∧
        (1 < 2 → b < c ∨ (b = c ∧ o < p)) :=
  ⟨by decide, by decide, At_slots_distinct_ordered 1 2 (by decide) (by decide)⟩

/-- C2 (size after appends), evaluated on the code: after one `PushBack(7)` on a freshly
constructed container the descriptor has `size_ = 1` and a write descriptor that is still not
marked completed, so `Size()` returns 0 and not 1. -/
theorem Size_after_one_PushBack :
    ∃ a, PushBack zeroed 7 (LockFreeArray.new zeroed nulls) = .ok () a ∧
      a.descriptor_.size_ = 1 ∧ a.descriptor_.writeDescriptor_.completed_ = false ∧
      Size a = 0 :=
  ⟨_, rfl, rfl, rfl, rfl⟩

/-- C4 (push/pop round trip preserves `Size()`), evaluated on the code: after `PushBack(1)` on
a freshly constructed container `Size()` returns 0; `PushBack(2)` followed by `PopBack()` then
returns 2 and leaves a state in which `Size()` returns 1. -/
theorem Size_changes_over_push_pop :
    ∃ a1 a2 a3, PushBack zeroed 1 (LockFreeArray.new zeroed nulls) = .ok () a1 ∧
      PushBack zeroed 2 a1 = .ok () a2 ∧ PopBack a2 = .ok 2 a3 ∧ Size a1 = 0 ∧ Size a3 = 1 :=
  ⟨_, _, _, rfl, rfl, rfl, rfl, rfl⟩

/-- C7 (PopBack returns the element that is logically last), evaluated on the code: after
`PushBack(5)`, `PopBack()`, `PushBack(6)` and the store `At(0)->store(5)` the descriptor size is
1 and slot 0 holds 5, yet `PopBack()` returns 6: its `CompleteWrite` replays the write of 6,
which is still not marked completed. -/
theorem PopBack_returns_replayed_value :
    ∃ a1 a2 a3 a4 a5, PushBack zeroed 5 (LockFreeArray.new zeroed nulls) = .ok () a1 ∧
      PopBack a1 = .ok 5 a2 ∧ PushBack zeroed 6 a2 = .ok () a3 ∧
      store_at 0 5 a3 = .ok () a4 ∧ a4.descriptor_.size_ = 1 ∧ load_at 0 a4 = .ok 5 a4 ∧
      PopBack a4 = .ok 6 a5 :=
  ⟨_, _, _, _, _, rfl, rfl, rfl, rfl, rfl, rfl, rfl⟩

/-- C11 (completion marks the descriptor), evaluated on the code: in the state left by
`PushBack(7)` on a freshly constructed container (which has already run `CompleteWrite` on the
new write descriptor) the write descriptor is not marked completed; running `CompleteWrite` on
it again, as the helping step does, returns a completed local copy and leaves the descriptor of
the container as it was, so `Size()` still subtracts one and returns 0. -/
theorem CompleteWrite_leaves_descriptor_pending :
    ∃ a1 w a2, PushBack zeroed 7 (LockFreeArray.new zeroed nulls) = .ok () a1 ∧
      a1.descriptor_.writeDescriptor_.completed_ = false ∧
      CompleteWrite a1.descriptor_.writeDescriptor_ a1 = .ok w a2 ∧ w.completed_ = true ∧
      a2.descriptor_.size_ = 1 ∧ a2.descriptor_.writeDescriptor_.completed_ = false ∧
      Size a2 = 0 :=
  ⟨_, _, _, rfl, rfl, rfl, rfl, rfl, rfl, rfl⟩

/-- C12 (bucket allocation is idempotent), evaluated on the code: after `PushBack(5)` on a
freshly constructed container bucket 0 holds the array `[5, 0]`; `AllocBucket(0)` then returns
with bucket 0 holding the newly allocated array `[0, 0]`, and the element 5 is gone. -/
theorem AllocBucket_replaces_published_bucket :
    ∃ a1 a2, PushBack zeroed 5 (LockFreeArray.new zeroed nulls) = .ok () a1 ∧
      a1.data_[0]? = some (some [5, 0]) ∧ load_at 0 a1 = .ok 5 a1 ∧
      AllocBucket zeroed 0 a1 = .ok () a2 ∧
      a2.data_[0]? = some (some [0, 0]) ∧ load_at 0 a2 = .ok 0 a2 :=
  ⟨_, _, rfl, rfl, rfl, rfl, rfl, rfl⟩

/-- C19 (PushBack leaves existing elements alone), evaluated on the code: after `PushBack(5)`,
`PopBack()`, `PushBack(6)` and the store `At(0)->store(5)` the descriptor size is 1 and slot 0
holds 5; `PushBack(9)` then writes 9 to slot 1 and also changes slot 0 from 5 to 6, because its
helping step replays the write of 6. -/
theorem PushBack_changes_earlier_slot :
    ∃ a1 a2 a3 a4 a5, PushBack zeroed 5 (LockFreeArray.new zeroed nulls) = .ok () a1 ∧
      PopBack a1 = .ok 5 a2 ∧ PushBack zeroed 6 a2 = .ok () a3 ∧
      store_at 0 5 a3 = .ok () a4 ∧ a4.descriptor_.size_ = 1 ∧ load_at 0 a4 = .ok 5 a4 ∧
      PushBack zeroed 9 a4 = .ok () a5 ∧ load_at 0 a5 = .ok 6 a5 ∧ load_at 1 a5 = .ok 9 a5 :=
  ⟨_, _, _, _, _, rfl, rfl, rfl, rfl, rfl, rfl, rfl, rfl, rfl⟩

/-- C5 (underflow): in every state reachable by `PushBack` and `PopBack` from a freshly
constructed container, `PopBack()` throws `out_of_range` exactly when the descriptor size is 0
and returns a value otherwise; whenever it throws, the exception is `out_of_range`, the whole
state (descriptor, bucket table, every element slot) is what it was before the call, and
`Size()` is 0 afterwards. -/
theorem PopBack_underflow [DecidableEq T] [Inhabited T] (a : LockFreeArray T)
    (h : Reachable a) :
    ((∃ a1, PopBack a = .throws Exn.out_of_range a1) ↔ a.descriptor_.size_ = 0) ∧
      (a.descriptor_.size_ ≠ 0 → ∃ v a1, PopBack a = .ok v a1) ∧
      ∀ e a1, PopBack a = .throws e a1 → e = Exn.out_of_range ∧ a1 = a ∧ Size a1 = 0 := by
  obtain ⟨vs, hv⟩ := Reachable_keeps a h
  rcases List.eq_nil_or_concat vs with e | ⟨ws, x, e⟩
  · subst e
    have hrun := PopBack_of_keeps_nil a hv
    have hs : a.descriptor_.size_ = 0 := hv.2.1
    have hsize : Size a = 0 := by
      rcases hv.2.2.2.2 with hc | ⟨hl, _⟩
      · simp [Size, hc, hs]
      · simp at hl
    refine ⟨⟨fun _ => hs, fun _ => ⟨a, hrun⟩⟩, fun hne => absurd hs hne, ?_⟩
    intro e a1 he
    rw [hrun] at he
    cases he
    exact ⟨rfl, rfl, hsize⟩
  · rw [List.concat_eq_append] at e
    subst e
    have hrun := PopBack_of_keeps_snoc a ws x hv
    have hs : a.descriptor_.size_ = ws.length + 1 := by rw [hv.2.1]; simp
    refine ⟨⟨?_, fun h0 => by omega⟩, fun _ => ⟨x, _, hrun⟩, ?_⟩
    · rintro ⟨a1, he⟩
      rw [hrun] at he
      cases he
    · intro e a1 he
      rw [hrun] at he
      cases he

/-- Instance of the underflow theorem at a freshly constructed container. -/
theorem PopBack_underflow_witness :
    Reachable (LockFreeArray.new zeroed nulls) ∧
      (((∃ a1, PopBack (LockFreeArray.new zeroed nulls) = .throws Exn.out_of_range a1) ↔
          (LockFreeArray.new zeroed nulls).descriptor_.size_ = 0) ∧
        ((LockFreeArray.new zeroed nulls).descriptor_.size_ ≠ 0 →
          ∃ v a1, PopBack (LockFreeArray.new zeroed nulls) = .ok v a1) ∧
        ∀ e a1, PopBack (LockFreeArray.new zeroed nulls) = .throws e a1 →
          e = Exn.out_of_range ∧ a1 = LockFreeArray.new zeroed nulls ∧ Size a1 = 0) :=
  ⟨Reachable.new zeroed nulls,
    PopBack_underflow (LockFreeArray.new zeroed nulls) (Reachable.new zeroed nulls)⟩

/-- C17 (append-only buckets): let `a` be a state reachable by `PushBack` and `PopBack` from a
freshly constructed container in which bucket `b` holds an array, and let `a1` be any state that
further calls of `PushBack` and `PopBack` lead to from `a`.  Then bucket `b` holds an array in
`a1` too, of the same length, whose contents are those of the array in `a` after element
stores; and when `a1` is one call away from `a`, the array is unchanged or has had one element
stored to.  No call puts a null pointer or a newly allocated array into an allocated slot. -/
theorem buckets_append_only [DecidableEq T] [Inhabited T] (a a1 : LockFreeArray T)
    (h : Reachable a) (hl : Relation.ReflTransGen Step a a1) (b : Nat) (bucket : List T)
    (hb : a.data_[b]? = some (some bucket)) :
    (∃ bucket1, a1.data_[b]? = some (some bucket1) ∧ ElementStores bucket bucket1 ∧
        bucket1.length = bucket.length) ∧
      (Step a a1 → a1.data_[b]? = some (some bucket) ∨
        ∃ o v, a1.data_[b]? = some (some (bucket.set o v))) := by
  constructor
  · obtain ⟨bucket1, h1, hst⟩ := Later_bucket a a1 h hl b bucket hb
    exact ⟨bucket1, h1, hst, ElementStores_length _ _ hst⟩
  · intro hs
    exact Step_bucket a a1 h hs b bucket hb

/-- Instance of the append-only theorem: bucket 0 of a freshly constructed container, which
holds `[0, 0]`, across one `PushBack(5)`. -/
theorem buckets_append_only_witness :
    Reachable (LockFreeArray.new zeroed nulls) ∧
      Relation.ReflTransGen Step (LockFreeArray.new zeroed nulls) one_push ∧
      (LockFreeArray.new zeroed nulls).data_[0]? = some (some [0, 0]) ∧
      ((∃ bucket1, one_push.data_[0]? = some (some bucket1) ∧
          ElementStores [0, 0] bucket1 ∧ bucket1.length = ([0, 0] : List Nat).length) ∧
        (Step (LockFreeArray.new zeroed nulls) one_push →
          one_push.data_[0]? = some (some [0, 0]) ∨
            ∃ o v, one_push.data_[0]? = some (some (([0, 0] : List Nat).set o v)))) :=
  ⟨Reachable.new zeroed nulls,
    Relation.ReflTransGen.single (Step.push zeroed 5 _ _ rfl), rfl,
    buckets_append_only (LockFreeArray.new zeroed nulls) one_push (Reachable.new zeroed nulls)
      (Relation.ReflTransGen.single (Step.push zeroed 5 _ _ rfl)) 0 [0, 0] rfl⟩

/-- C1 (read-back after appends), evaluated on the code: on a freshly constructed container
whose bucket pointer 2, which the constructor never writes, holds a non-null pointer to no
array, the pushes of 1, ..., 6 return; the seventh `PushBack` finds that pointer non-null, skips
`AllocBucket` and dereferences it, so the run of seven pushes ends in undefined behaviour and
no slot reads back 7. -/
theorem pushes_through_wild_pointer :
    pushAll zeroed [1, 2, 3, 4, 5, 6] (LockFreeArray.new zeroed wild2) = .ok () six_pushes ∧
      pushAll zeroed [1, 2, 3, 4, 5, 6, 7] (LockFreeArray.new zeroed wild2) = .undefined := by
  decide!

/-- C3 (push/pop round trip returns the value), evaluated on the code: the state reached by
`2^31 - 2` calls of `PushBack(0)` on a container with null bucket pointers is reachable and
holds `2^31 - 2` elements, and there `PushBack(v)` throws `bad_array_new_length` for every
`v` (it asks for bucket 30, whose size `1 << 31` overflows `int` to a negative value) and
leaves the state as it was, so no `PopBack()` returns `v`. -/
theorem PushBack_throws_at_capacity :
    ∃ a, pushAll zeroed (List.replicate (2 ^ 31 - 2) 0) (LockFreeArray.new zeroed nulls) =
        .ok () a ∧
      Reachable a ∧ a.descriptor_.size_ = 2 ^ 31 - 2 ∧
      ∀ v, PushBack zeroed v a = .throws Exn.bad_array_new_length a :=
  capacity_run zeroed (List.replicate (2 ^ 31 - 2) 0) (List.length_replicate _ _)

/-- C6 (LIFO order), evaluated on the code: on a freshly constructed container whose bucket
pointer 2 holds a non-null pointer to no array, pushing 1, ..., 7 and then calling `PopBack()`
seven times ends in undefined behaviour in the seventh `PushBack`, before any `PopBack()`
runs. -/
theorem LIFO_through_wild_pointer :
    (pushAll zeroed [1, 2, 3, 4, 5, 6, 7] >>= fun _ => popN 7)
      (LockFreeArray.new zeroed wild2) = .undefined := by
  decide!

/-- C9 (construction), the part the code supports: for any contents of the memory the
constructor leaves unwritten, a freshly constructed container has `Size() = 0`, its descriptor
has size 0 and a write descriptor with `completed_ = true` and `location_ = 0`, the bucket
table has `kNumberOfBuckets` entries and bucket 0 is an allocated array of
`kFirstBucketCapacity = 2` slots.  `Empty()` has no embedding: it is a `const` member that
calls the non-const `Size()`, so no call of it compiles. -/
theorem fresh_container [Inhabited T] (fresh : Nat → Nat → T) (junk : Nat → Option (List T)) :
    Size (LockFreeArray.new fresh junk) = 0 ∧
      (LockFreeArray.new fresh junk).descriptor_.size_ = 0 ∧
      (LockFreeArray.new fresh junk).descriptor_.writeDescriptor_.completed_ = true ∧
      (LockFreeArray.new fresh junk).descriptor_.writeDescriptor_.location_ = 0 ∧
      (LockFreeArray.new fresh junk).data_.length = kNumberOfBuckets ∧
      (LockFreeArray.new fresh junk).data_[0]? = some (some [fresh 0 0, fresh 0 1]) ∧
      [fresh 0 0, fresh 0 1].length = kFirstBucketCapacity := by
  refine ⟨rfl, rfl, rfl, rfl, new_data_length fresh junk, ?_, rfl⟩
  rw [new_data_get]
  rfl

/-- C10 (no lost or duplicated appends), evaluated on the code at N = 1 thread and M = 1 call,
where the only interleaving is the sequential run: after the single `PushBack(7)` the
descriptor has size 1, yet `Size()` returns 0 and not N * M = 1, and the scan of
`At(0..Size())` reads no value, not the pushed 7. -/
theorem single_append_is_not_counted :
    ∃ a, pushAll zeroed [7] (LockFreeArray.new zeroed nulls) = .ok () a ∧
      a.descriptor_.size_ = 1 ∧ Size a = 0 ∧ Size a ≠ 1 * 1 ∧
      (List.range (Size a)).map (fun i => load_at i a) = [] :=
  ⟨_, rfl, rfl, rfl, by decide, rfl⟩

/-- C13 (storage exists before use), evaluated on the code: on a container whose bucket
pointer 2 was left holding a non-null pointer to no array, the state after six pushes is
reachable and has size 6, below `2^31 - 2`; index 6 is slot 0 of bucket 2; the allocation step
of `PushBack` loads the non-null pointer and so does not call `AllocBucket`, and the `At(6)`
dereference that follows is undefined behaviour: it goes through a pointer to no allocated
bucket. -/
theorem PushBack_dereferences_wild_pointer :
    Reachable six_pushes ∧ six_pushes.descriptor_.size_ = 6 ∧
      six_pushes.descriptor_.size_ < 2 ^ 31 - 2 ∧ At 6 = some (2, 0) ∧
      bucket_load 2 six_pushes = .ok (some []) six_pushes ∧
      load_at 6 six_pushes = .undefined ∧
      PushBack zeroed 7 six_pushes = .undefined :=
  ⟨pushAll_reachable zeroed [1, 2, 3, 4, 5, 6] (LockFreeArray.new zeroed wild2) six_pushes
      (Reachable.new zeroed wild2) (by decide!),
    by decide!, by decide!, by decide!, by decide!, by decide!, by decide!⟩

/-- C14 (descriptor invariant): in every state reachable by `PushBack` and `PopBack` from a
freshly constructed container, the write descriptor of the current vector descriptor is either
completed, or it is pending with `size_ ≥ 1` and `location_ = size_ - 1` and the slot of that
index holds its `new_value_`; `Size()` is `size_` in the first case and `size_ - 1` in the
second, so it never wraps below zero. -/
theorem descriptor_invariant [DecidableEq T] [Inhabited T] (a : LockFreeArray T)
    (h : Reachable a) :
    (a.descriptor_.writeDescriptor_.completed_ = true ∨
      (a.descriptor_.writeDescriptor_.completed_ = false ∧ 1 ≤ a.descriptor_.size_ ∧
        a.descriptor_.writeDescriptor_.location_ = a.descriptor_.size_ - 1 ∧
        load_at (a.descriptor_.size_ - 1) a =
          .ok a.descriptor_.writeDescriptor_.new_value_ a)) ∧
      (a.descriptor_.writeDescriptor_.completed_ = true → Size a = a.descriptor_.size_) ∧
      (a.descriptor_.writeDescriptor_.completed_ = false → Size a + 1 = a.descriptor_.size_) ∧
      Size a ≤ a.descriptor_.size_ := by
  obtain ⟨vs, hv⟩ := Reachable_keeps a h
  exact keeps_descriptor a vs hv

/-- Instance of the descriptor invariant at the state after one `PushBack(5)`, whose write
descriptor is pending: `size_` is 1, `location_` is 0 and slot 0 holds 5. -/
theorem descriptor_invariant_witness :
    Reachable one_push ∧ one_push.descriptor_.writeDescriptor_.completed_ = false ∧
      ((one_push.descriptor_.writeDescriptor_.completed_ = true ∨
        (one_push.descriptor_.writeDescriptor_.completed_ = false ∧
          1 ≤ one_push.descriptor_.size_ ∧
          one_push.descriptor_.writeDescriptor_.location_ = one_push.descriptor_.size_ - 1 ∧
          load_at (one_push.descriptor_.size_ - 1) one_push =
            .ok one_push.descriptor_.writeDescriptor_.new_value_ one_push)) ∧
      (one_push.descriptor_.writeDescriptor_.completed_ = true →
        Size one_push = one_push.descriptor_.size_) ∧
      (one_push.descriptor_.writeDescriptor_.completed_ = false →
        Size one_push + 1 = one_push.descriptor_.size_) ∧
      Size one_push ≤ one_push.descriptor_.size_) :=
  ⟨Reachable.push zeroed 5 _ _ (Reachable.new zeroed nulls) rfl, rfl,
    descriptor_invariant one_push
      (Reachable.push zeroed 5 _ _ (Reachable.new zeroed nulls) rfl)⟩

/-- C20 (bucket capacity over the whole table), evaluated on the code: for bucket 30 the size
`1 << 31` computed in `int` is `-2^31`, not `kFirstBucketCapacity * 2^30 = 2^31`, and
`AllocBucket(30)` throws `bad_array_new_length`; for bucket 31 the shift count 32 is outside
the range in which the shift is defined. -/
theorem bucketSize_top_buckets :
    bucketSize 30 = some (-(2 ^ 31)) ∧
      bucketSize 30 ≠ some ((kFirstBucketCapacity * 2 ^ 30 : Nat) : Int) ∧
      AllocBucket zeroed 30 (LockFreeArray.new zeroed nulls) =
        .throws Exn.bad_array_new_length (LockFreeArray.new zeroed nulls) ∧
      bucketSize 31 = none ∧
      AllocBucket zeroed 31 (LockFreeArray.new zeroed nulls) = .undefined := by
  decide!


end facts

end fast_ds
